import Mathlib

set_option maxHeartbeats 1000000
set_option maxRecDepth 8000

/-!
Verification development for the PCMP LZSS codec
(`pcmp_compressor.go`, `pcmp_decompressor.go`).

Bytes are modelled as `Nat` values; machine-integer wraparound is explicit
(`% 256` for Go `byte` shifts, `% 65536` for `uint16`, `% 4294967296` for
`uint32`).  Byte buffers are `List Nat`.  The Go loops are embedded as
structurally recursive functions on an explicit fuel argument; fuel is always
instantiated so that it cannot run out (proved where needed), and fuel
exhaustion is a dedicated error constructor so it can never be confused with a
behaviour of the original program.
-/

/-- Constant from pcmp_compressor.go: `maxWindowSize = 4096`. -/
def maxWindowSize : Nat := 4096

/-- Constant from pcmp_compressor.go: `maxEncodedLength = 18`. -/
def maxEncodedLength : Nat := 18

/-- Constant from pcmp_compressor.go: `minMatchLength = 3`. -/
def minMatchLength : Nat := 3

/-- Constant from pcmp_compressor.go: `pcmpHeaderSize = 0x20`. -/
def pcmpHeaderSize : Nat := 32

/-- Constant from pcmp_compressor.go: `outputBufferSlack = 2048`. -/
def outputBufferSlack : Nat := 2048

/-- Constant from pcmp_compressor.go: `fileAlignment = 2048`. -/
def fileAlignment : Nat := 2048

/-- Constant from pcmp_decompressor.go: `pcmpDataOffset = 0x20`. -/
def pcmpDataOffset : Nat := 32

/-- Model of Go `bytes.LastIndex` search step: try indices `i, i-1, ..., 0`
and return the first (hence largest) index where `p` occurs in `w`. -/
def lastIndexAux (w p : List Nat) : Nat → Option Nat
  | 0 => if (w.drop 0).take p.length = p then some 0 else none
  | i + 1 =>
    if (w.drop (i + 1)).take p.length = p then some (i + 1)
    else lastIndexAux w p i

/-- Model of Go `bytes.LastIndex(w, p)`: index of the last occurrence of `p`
in `w` (`none` for Go's `-1`). -/
def lastIndex (w p : List Nat) : Option Nat :=
  if p.length ≤ w.length then lastIndexAux w p (w.length - p.length) else none

/-- Inner loop of `findMatch` (pcmp_compressor.go lines 65-75): candidate
lengths are tried from `l` down to `minMatchLength`; the pattern is
`inputData[pos : pos+l]` and the search is `bytes.LastIndex(window, pattern)`.
The argument `ws` is `windowStart`, `w` is the window slice. -/
def findMatchLoop (X : List Nat) (pos ws : Nat) (w : List Nat) : Nat → Option (Nat × Nat)
  | 0 => none
  | 1 => none
  | 2 => none
  | l + 3 =>
    if X.length < pos + (l + 3) then findMatchLoop X pos ws w (l + 2)
    else
      match lastIndex w ((X.drop pos).take (l + 3)) with
      | some idx => some (pos - (ws + idx), l + 3)
      | none => findMatchLoop X pos ws w (l + 2)

/-- Model of `findMatch` (pcmp_compressor.go lines 46-77).  Returns
`some (offset, length)` for Go's `(offset, length, true)` and `none` for
`(0, 0, false)`. -/
def findMatch (X : List Nat) (pos W L : Nat) : Option (Nat × Nat) :=
  if X.length < pos + minMatchLength then none
  else
    let L' := if X.length < pos + L then X.length - pos else L
    if L' < minMatchLength then none
    else
      let ws := pos - W
      let w := (X.drop ws).take (pos - ws)
      if w.length = 0 then none
      else findMatchLoop X pos ws w L'

/-- Copy-pair value `uint16(((matchOffset-1) << 4) | ((matchLength-3) & 0x0F))`
(pcmp_compressor.go line 166). -/
def encodePairVal (off len : Nat) : Nat :=
  (((off - 1) <<< 4) ||| ((len - 3) &&& 15)) % 65536

/-- The two bytes of a Copy token as written by the compressor
(pcmp_compressor.go lines 167-169). -/
def encodePairBytes (off len : Nat) : List Nat :=
  [encodePairVal off len &&& 255, (encodePairVal off len >>> 8) &&& 255]

/-- Copy offset decoded by the decompressor
(`int(((uint16(byte1) >> 4) | (uint16(byte2) << 4))) + 1`,
pcmp_decompressor.go line 92). -/
def decodeOffset (b0 b1 : Nat) : Nat := ((b0 >>> 4) ||| (b1 <<< 4)) + 1

/-- Copy count decoded by the decompressor (`int((byte1 & 0x0F)) + 3`,
pcmp_decompressor.go line 93). -/
def decodeCount (b0 : Nat) : Nat := (b0 &&& 15) + 3

/-- Errors of the compressor.  `bufferTooSmall` is `errBufferTooSmall`;
`fuelOut` is an artefact of the fuel-based embedding and is unreachable with
the fuel used by `coreCompressV1`. -/
inductive CompErr where
  | bufferTooSmall
  | fuelOut
deriving DecidableEq, Repr

/-- One-token-per-step embedding of the main loop of `coreCompressV1`
(pcmp_compressor.go lines 108-173).  The mutable output buffer is represented
by its parts: the bytes strictly before the current flag byte are only tracked
through their count `flagPos`; `flag` is `currentFlag`, `bc` is `bitCount`,
`pending` holds the bytes already written after the current flag position.
The function returns the final contents of `outputBuffer[flagPos:outputPos]`,
i.e. the patched current flag byte followed by everything after it; callers
prepend the already-fixed prefix.  `op` is the current `outputPos`; every
capacity comparison against the heuristic buffer size `B` mirrors a
`>= len(outputBuffer)` check in the source, in source order. -/
def compressLoop (X : List Nat) (B : Nat) :
    Nat → Nat → Nat → Nat → List Nat → Nat → Except CompErr (List Nat)
  | 0, _, _, _, _, _ => .error .fuelOut
  | fuel + 1, ip, bc, flag, pending, flagPos =>
    if X.length ≤ ip then .ok (flag :: pending)
    else
      let op := flagPos + 1 + pending.length
      if B ≤ op then .error .bufferTooSmall
      else
        match findMatch X ip (min ip maxWindowSize) (min (X.length - ip) maxEncodedLength) with
        | none =>
          if bc + 1 = 8 then
            if B ≤ op then .error .bufferTooSmall
            else if B ≤ op + 1 then .error .bufferTooSmall
            else
              match compressLoop X B fuel (ip + 1) 0 0 [X.getD ip 0] op with
              | .ok r => .ok (flag :: (pending ++ r))
              | .error e => .error e
          else
            if B ≤ op then .error .bufferTooSmall
            else compressLoop X B fuel (ip + 1) (bc + 1) flag (pending ++ [X.getD ip 0]) flagPos
        | some (off, len) =>
          let flag2 := flag ||| (1 <<< (7 - bc))
          if bc + 1 = 8 then
            if B ≤ op then .error .bufferTooSmall
            else if B ≤ op + 2 then .error .bufferTooSmall
            else
              match compressLoop X B fuel (ip + len) 0 0 (encodePairBytes off len) op with
              | .ok r => .ok (flag2 :: (pending ++ r))
              | .error e => .error e
          else
            if B ≤ op + 1 then .error .bufferTooSmall
            else
              compressLoop X B fuel (ip + len) (bc + 1) flag2
                (pending ++ encodePairBytes off len) flagPos

/-- Model of `coreCompressV1` (pcmp_compressor.go lines 80-177): empty-input
shortcut, heuristic buffer size, initial flag placeholder, main loop. -/
def coreCompressV1 (X : List Nat) : Except CompErr (List Nat) :=
  if X.length = 0 then .ok []
  else
    let e1 := X.length + outputBufferSlack
    let e2 := if X.length < 1024 then 2 * X.length + 128 else e1
    let B := if e2 < 128 then 128 else e2
    if B ≤ 0 then .error .bufferTooSmall
    else compressLoop X B (X.length + 1) 0 0 0 [] 0

/-- Tokens of the compressed stream: a Literal byte or a Copy back-reference. -/
inductive Token where
  | lit : Nat → Token
  | cpy : Nat → Nat → Token
deriving DecidableEq, Repr

/-- Token decisions of the `coreCompressV1` loop, separated from the byte
serialization: at each position the loop consults `findMatch` with window
bound `min ip 4096` and length bound `min (|X| - ip) 18`, emitting a Literal
(advance 1) or a Copy (advance by the match length). -/
def tokensFrom (X : List Nat) : Nat → Nat → List Token
  | 0, _ => []
  | fuel + 1, ip =>
    if X.length ≤ ip then []
    else
      match findMatch X ip (min ip maxWindowSize) (min (X.length - ip) maxEncodedLength) with
      | none => .lit (X.getD ip 0) :: tokensFrom X fuel (ip + 1)
      | some (off, len) => .cpy off len :: tokensFrom X fuel (ip + len)

/-- Token sequence emitted by the encoder for input `X`. -/
def tokens (X : List Nat) : List Token := tokensFrom X X.length 0

/-- Control bit of a token: 1 for Copy, 0 for Literal. -/
def tokBit : Token → Nat
  | .lit _ => 0
  | .cpy _ _ => 1

/-- Serialized bytes of a single token. -/
def tokBytes : Token → List Nat
  | .lit b => [b]
  | .cpy off len => encodePairBytes off len

/-- Number of input bytes a token covers. -/
def tokLen : Token → Nat
  | .lit _ => 1
  | .cpy _ len => len

/-- Total number of input bytes covered by a token list. -/
def sumLens (ts : List Token) : Nat := (ts.map tokLen).sum

/-- Value of a control byte whose bits `bc, bc+1, ..., 7` (MSB-first
positions) are the control bits of the next tokens. -/
def flagRest : List Token → Nat → Nat
  | [], _ => 0
  | tk :: r, bc => if bc < 8 then tokBit tk * 2 ^ (7 - bc) + flagRest r (bc + 1) else 0

/-- Byte serialization of a token list starting at bit position `bc` of the
current (already emitted) control byte: when the 8th bit of a control byte is
used, the next control byte is placed before that token's bytes, exactly as
the compressor's buffer patching lays it out. -/
def serializeBody : List Token → Nat → List Nat
  | [], _ => []
  | tk :: r, bc =>
    if bc = 7 then flagRest r 0 :: (tokBytes tk ++ serializeBody r 0)
    else tokBytes tk ++ serializeBody r (bc + 1)

/-- Full byte serialization of a token list (first control byte, then body). -/
def serialize (ts : List Token) : List Nat := flagRest ts 0 :: serializeBody ts 0

/-- Errors of the decompressor, mirroring the `errors.New` values of
pcmp_decompressor.go; `fuelOut` is an artefact of the fuel-based embedding and
is unreachable with the fuel used by `lzssSimpleDecompress`. -/
inductive DecErr where
  | streamEmpty
  | prematureEnd
  | prematureEndCopy
  | prematureEndLiteral
  | fuelOut
deriving DecidableEq, Repr

/-- Inner copy loop of the decompressor (pcmp_decompressor.go lines 95-104):
append `count` bytes, stopping early when the target size is reached; an
offset reaching before the start of the output appends a zero byte, otherwise
the byte at `len(outBuffer) - offset` is appended. -/
def copyStep : List Nat → Nat → Nat → Nat → List Nat
  | out, _, 0, _ => out
  | out, off, n + 1, t =>
    if t ≤ out.length then out
    else copyStep (out ++ [if out.length < off then 0 else out.getD (out.length - off) 0]) off n t

/-- Main loop of `lzssSimpleDecompress` (pcmp_decompressor.go lines 63-116):
`idx` is `streamIdx`, `ctrl` is `controlByte` (a byte value, shifted with
explicit `% 256`), `bitsLeft` counts unconsumed control bits.  The refresh of
the control byte after its 8th bit, including the exhaustion break/error, is
the inner `Option` computation. -/
def decompLoop (S : List Nat) (t : Nat) :
    Nat → Nat → Nat → Nat → List Nat → Except DecErr (List Nat)
  | 0, _, _, _, _ => .error .fuelOut
  | fuel + 1, idx, ctrl, bitsLeft, out =>
    if t ≤ out.length then .ok out
    else if S.length < idx then .error .prematureEnd
    else
      let ctrl1 := (ctrl <<< 1) % 256
      let bl1 := bitsLeft - 1
      match (if bl1 = 0 then
               (if S.length ≤ idx then none else some (idx + 1, S.getD idx 0, 8))
             else some (idx, ctrl1, bl1) : Option (Nat × Nat × Nat)) with
      | none => if out.length < t then .error .prematureEnd else .ok out
      | some (idx2, ctrl2, bl2) =>
        if ctrl &&& 128 ≠ 0 then
          if S.length ≤ idx2 + 1 then .error .prematureEndCopy
          else
            decompLoop S t fuel (idx2 + 2) ctrl2 bl2
              (copyStep out (decodeOffset (S.getD idx2 0) (S.getD (idx2 + 1) 0))
                (decodeCount (S.getD idx2 0)) t)
        else
          if S.length ≤ idx2 then .error .prematureEndLiteral
          else if t ≤ out.length then .ok out
          else decompLoop S t fuel (idx2 + 1) ctrl2 bl2 (out ++ [S.getD idx2 0])

/-- Model of `lzssSimpleDecompress` (pcmp_decompressor.go lines 46-124). -/
def lzssSimpleDecompress (S : List Nat) (t : Nat) : Except DecErr (List Nat) :=
  if S.length = 0 then (if 0 < t then .error .streamEmpty else .ok [])
  else decompLoop S t (t + 1) 1 (S.getD 0 0) 8 []

/-- Little-endian bytes of a 32-bit value (`binary.LittleEndian.PutUint32`);
values at or above `2^32` wrap, matching the Go `uint32` cast at call sites. -/
def putUint32LE (v : Nat) : List Nat :=
  [v % 256, v / 256 % 256, v / 65536 % 256, v / 16777216 % 256]

/-- Little-endian 32-bit read at offset `i` (`binary.LittleEndian.Uint32`). -/
def getUint32LE (b : List Nat) (i : Nat) : Nat :=
  b.getD i 0 + 256 * b.getD (i + 1) 0 + 65536 * b.getD (i + 2) 0 +
    16777216 * b.getD (i + 3) 0

/-- Model of `writePCMPHeader` (pcmp_compressor.go lines 29-43): "PCMP"
signature, zero bytes, the two sizes little-endian at 0x14 and 0x18.  The Go
function's error result is always `nil`, so the model returns the bytes. -/
def writePCMPHeader (u c : Nat) : List Nat :=
  [80, 67, 77, 80] ++ List.replicate 16 0 ++ putUint32LE u ++ putUint32LE c ++
    List.replicate 4 0

/-- Header-parsing errors of pcmp_decompressor.go. -/
inductive HdrErr where
  | fileTooShort
  | invalidSignature
deriving DecidableEq, Repr

/-- Model of `readPCMPHeader` (pcmp_decompressor.go lines 27-44), including
the clamp of an invalid or oversized compressed-stream size to the byte count
remaining after the 32-byte header (a `uint32` quantity). -/
def readPCMPHeader (buf : List Nat) : Except HdrErr (Nat × Nat) :=
  if buf.length < pcmpDataOffset then .error .fileTooShort
  else if buf.take 4 ≠ [80, 67, 77, 80] then .error .invalidSignature
  else
    let outSize := getUint32LE buf 20
    let compSize := getUint32LE buf 24
    let remaining := (buf.length - pcmpDataOffset) % 4294967296
    if compSize = 0 ∨ remaining < compSize then .ok (outSize, remaining)
    else .ok (outSize, compSize)

/-- Model of `compressAndPadToPCMP` (pcmp_compressor.go lines 180-217):
compress, prepend the header (sizes as `uint32`), pad with zero bytes to the
next multiple of `fileAlignment`. -/
def compressAndPadToPCMP (X : List Nat) : Except CompErr (List Nat) :=
  match coreCompressV1 X with
  | .error e => .error e
  | .ok s =>
    let header := writePCMPHeader (X.length % 4294967296) (s.length % 4294967296)
    let final := header ++ s
    let rem := final.length % fileAlignment
    let pad := if rem ≠ 0 then fileAlignment - rem else 0
    .ok (final ++ List.replicate pad 0)

/-- Replay of a token list by the decoder's output semantics: literals append
their byte, copies run the decoder's copy loop. -/
def replayTokens (t : Nat) : List Nat → List Token → List Nat
  | out, [] => out
  | out, .lit b :: ts => replayTokens t (out ++ [b]) ts
  | out, .cpy off len :: ts => replayTokens t (copyStep out off len t) ts

/-- Byte `n` of the incompressible witness input: even positions carry a
7-bit counter residue (values below 128), odd positions carry 128 plus the
counter's high part (values in [128, 192)), so no 3 consecutive bytes ever
repeat anywhere in the sequence. -/
def badByte (n : Nat) : Nat := if n % 2 = 0 then n / 2 % 128 else 128 + n / 2 / 128

/-- A 16384-byte input containing no repeated 3-byte substring, so the
encoder emits 16384 literal tokens and overflows its heuristic buffer. -/
def badInput : List Nat := (List.range 16384).map badByte

/-! Bit-arithmetic helpers used to relate the Go bitwise expressions to plain
arithmetic. -/

/-- Disjoint bit ranges: or-ing a multiple of `2^n` with a value below `2^n`
is addition. -/
theorem lorAddOfLt {b : Nat} (a : Nat) (n : Nat) (hb : b < 2 ^ n) :
    (2 ^ n * a) ||| b = 2 ^ n * a + b :=
  (Nat.mul_add_lt_is_or hb a).symm

/-- Or-ing in a fresh bit `2^k` of a value divisible by `2^(k+1)` is
addition. -/
theorem lorBitOfDvd {flag k : Nat} (h : 2 ^ (k + 1) ∣ flag) :
    flag ||| 2 ^ k = flag + 2 ^ k := by
  obtain ⟨q, rfl⟩ := h
  have hk : 2 ^ k < 2 ^ (k + 1) := by
    have := Nat.pow_lt_pow_succ (a := 2) (n := k) (by omega)
    omega
  exact lorAddOfLt q (k + 1) hk

/-- Test of the top bit of a byte value. -/
theorem andTopBit : ∀ x, x < 256 → ((x &&& 128 ≠ 0) ↔ 128 ≤ x) := by decide

/-- Value of the packed Copy pair as plain arithmetic, given the ranges the
encoder guarantees. -/
theorem encodePairVal_eq {off len : Nat} (h1 : 1 ≤ off) (h2 : off ≤ 4096)
    (h3 : 3 ≤ len) (h4 : len ≤ 18) :
    encodePairVal off len = 16 * (off - 1) + (len - 3) := by
  unfold encodePairVal
  have hb : (len - 3) &&& 15 = len - 3 := by
    have h15 : (15 : Nat) = 2 ^ 4 - 1 := by norm_num
    rw [h15, Nat.and_pow_two_sub_one_eq_mod]
    omega
  have hshift : (off - 1) <<< 4 = 2 ^ 4 * (off - 1) := by
    rw [Nat.shiftLeft_eq]; ring
  rw [hb, hshift, lorAddOfLt (off - 1) 4 (by omega)]
  have : 2 ^ 4 * (off - 1) + (len - 3) < 65536 := by omega
  rw [Nat.mod_eq_of_lt this]
  ring_nf

/-- Byte-level roundtrip of the Copy pair encoding: the decompressor recovers
the offset and length the compressor packed, given the encoder's ranges. -/
theorem decode_encodePair {off len : Nat} (h1 : 1 ≤ off) (h2 : off ≤ 4096)
    (h3 : 3 ≤ len) (h4 : len ≤ 18) :
    decodeOffset (encodePairVal off len &&& 255) ((encodePairVal off len >>> 8) &&& 255) = off ∧
      decodeCount (encodePairVal off len &&& 255) = len := by
  have he := encodePairVal_eq h1 h2 h3 h4
  set a := off - 1 with ha
  set b := len - 3 with hbdef
  have hb : b ≤ 15 := by omega
  have ha' : a ≤ 4095 := by omega
  have h255 : (255 : Nat) = 2 ^ 8 - 1 := by norm_num
  have h15 : (15 : Nat) = 2 ^ 4 - 1 := by norm_num
  have hb0 : encodePairVal off len &&& 255 = (16 * a + b) % 256 := by
    rw [he, h255, Nat.and_pow_two_sub_one_eq_mod]
  have hb1 : (encodePairVal off len >>> 8) &&& 255 = a / 16 := by
    rw [he, h255, Nat.and_pow_two_sub_one_eq_mod, Nat.shiftRight_eq_div_pow]
    have : (2 : Nat) ^ 8 = 256 := by norm_num
    rw [this]
    omega
  have lor16 : ∀ x y : Nat, y < 16 → 16 * x ||| y = 16 * x + y := by
    intro x y hy
    have h := lorAddOfLt x 4 (show y < 2 ^ 4 by norm_num; omega)
    norm_num at h
    exact h
  constructor
  · rw [hb0, hb1]
    unfold decodeOffset
    rw [Nat.shiftRight_eq_div_pow, Nat.shiftLeft_eq]
    have h2four : (2 : Nat) ^ 4 = 16 := by norm_num
    rw [h2four]
    have hdiv : (16 * a + b) % 256 / 16 = a % 16 := by omega
    rw [hdiv, Nat.lor_comm, Nat.mul_comm (a / 16) 16, lor16 (a / 16) (a % 16) (by omega)]
    omega
  · rw [hb0]
    unfold decodeCount
    rw [h15, Nat.and_pow_two_sub_one_eq_mod]
    omega

/-- The two bytes written for a Copy pair are byte values. -/
theorem encodePairBytes_lt (off len : Nat) :
    ∀ x ∈ encodePairBytes off len, x < 256 := by
  unfold encodePairBytes
  intro x hx
  have h255 : (255 : Nat) = 2 ^ 8 - 1 := by norm_num
  simp only [List.mem_cons, List.not_mem_nil, or_false] at hx
  rcases hx with rfl | rfl
  · rw [h255, Nat.and_pow_two_sub_one_eq_mod]; omega
  · rw [h255, Nat.and_pow_two_sub_one_eq_mod]; omega

/-! Specification of the `bytes.LastIndex` model. -/

/-- Occurrence of a non-empty `p` in `w` at index `k` forces
`k + |p| ≤ |w|`. -/
theorem matchAt_le {w p : List Nat} {k : Nat} (hp : 0 < p.length)
    (h : (w.drop k).take p.length = p) : k + p.length ≤ w.length := by
  have := congrArg List.length h
  rw [List.length_take, List.length_drop] at this
  rcases Nat.le_total p.length (w.length - k) with hle | hle
  · rw [Nat.min_eq_left hle] at this
    omega
  · rw [Nat.min_eq_right hle] at this
    omega

theorem lastIndexAux_some {w p : List Nat} :
    ∀ i j, lastIndexAux w p i = some j →
      j ≤ i ∧ (w.drop j).take p.length = p ∧
        ∀ k, j < k → k ≤ i → (w.drop k).take p.length ≠ p := by
  intro i
  induction i with
  | zero =>
    intro j h
    unfold lastIndexAux at h
    by_cases hm : (w.drop 0).take p.length = p
    · simp only [hm, if_pos] at h
      cases h
      exact ⟨Nat.le_refl _, hm, fun k hk hk' => by omega⟩
    · simp only [hm, if_neg, if_false] at h
      cases h
  | succ i ih =>
    intro j h
    unfold lastIndexAux at h
    by_cases hm : (w.drop (i + 1)).take p.length = p
    · rw [if_pos hm] at h
      cases h
      exact ⟨Nat.le_refl _, hm, fun k hk hk' => by omega⟩
    · rw [if_neg hm] at h
      obtain ⟨h1, h2, h3⟩ := ih j h
      refine ⟨by omega, h2, fun k hk hk' => ?_⟩
      rcases Nat.lt_or_ge k (i + 1) with hlt | hge
      · exact h3 k hk (by omega)
      · have : k = i + 1 := by omega
        subst this; exact hm

theorem lastIndexAux_none {w p : List Nat} :
    ∀ i, lastIndexAux w p i = none →
      ∀ k, k ≤ i → (w.drop k).take p.length ≠ p := by
  intro i
  induction i with
  | zero =>
    intro h k hk
    unfold lastIndexAux at h
    by_cases hm : (w.drop 0).take p.length = p
    · rw [if_pos hm] at h
      cases h
    · have : k = 0 := by omega
      subst this; exact hm
  | succ i ih =>
    intro h k hk
    unfold lastIndexAux at h
    by_cases hm : (w.drop (i + 1)).take p.length = p
    · rw [if_pos hm] at h
      cases h
    · rw [if_neg hm] at h
      rcases Nat.lt_or_ge k (i + 1) with hlt | hge
      · exact ih h k (by omega)
      · have : k = i + 1 := by omega
        subst this; exact hm

/-- Characterization of `lastIndex`'s successful result: an occurrence, and
the last one. -/
theorem lastIndex_some {w p : List Nat} {j : Nat} (hp : 0 < p.length)
    (h : lastIndex w p = some j) :
    j + p.length ≤ w.length ∧ (w.drop j).take p.length = p ∧
      ∀ k, j < k → (w.drop k).take p.length ≠ p := by
  unfold lastIndex at h
  by_cases hl : p.length ≤ w.length
  · rw [if_pos hl] at h
    obtain ⟨h1, h2, h3⟩ := lastIndexAux_some _ j h
    refine ⟨by omega, h2, fun k hk => ?_⟩
    rcases le_or_lt k (w.length - p.length) with hk' | hk'
    · exact h3 k hk hk'
    · intro hc
      have := matchAt_le hp hc
      omega
  · rw [if_neg hl] at h
    cases h

/-- Characterization of `lastIndex` failure: no occurrence anywhere. -/
theorem lastIndex_none {w p : List Nat} (hp : 0 < p.length)
    (h : lastIndex w p = none) :
    ∀ k, (w.drop k).take p.length ≠ p := by
  unfold lastIndex at h
  intro k
  by_cases hl : p.length ≤ w.length
  · rw [if_pos hl] at h
    rcases le_or_lt k (w.length - p.length) with hk | hk
    · exact lastIndexAux_none _ h k hk
    · intro hc
      have := matchAt_le hp hc
      omega
  · intro hc
    have := matchAt_le hp hc
    omega

/-! Characterization of the match finder. -/

/-- Equal slices of `X` give elementwise equal bytes. -/
theorem slice_eq_getD {X : List Nat} {s pos l : Nat}
    (h : (X.drop s).take l = (X.drop pos).take l) :
    ∀ i, i < l → X.getD (s + i) 0 = X.getD (pos + i) 0 := by
  intro i hi
  have h2 := congrArg (fun t => t[i]?) h
  simp only [List.getElem?_take_of_lt hi, List.getElem?_drop] at h2
  simp only [List.getD_eq_getElem?_getD, h2]

/-- A slice of the window is a slice of the input. -/
theorem window_slice {X : List Nat} {ws pos idx l : Nat} (hl : idx + l ≤ pos - ws) :
    (((X.drop ws).take (pos - ws)).drop idx).take l = (X.drop (ws + idx)).take l := by
  rw [List.drop_take, List.drop_drop, List.take_take]
  have : min l (pos - ws - idx) = l := by omega
  rw [this]

theorem findMatchLoop_some {X : List Nat} {pos ws : Nat} {w : List Nat} :
    ∀ L off len, findMatchLoop X pos ws w L = some (off, len) →
      3 ≤ len ∧ len ≤ L ∧ pos + len ≤ X.length ∧
        (∃ idx, lastIndex w ((X.drop pos).take len) = some idx ∧
          off = pos - (ws + idx)) ∧
        ∀ l, len < l → l ≤ L → pos + l ≤ X.length →
          lastIndex w ((X.drop pos).take l) = none := by
  intro L
  induction L using Nat.strong_induction_on with
  | _ L ih =>
    intro off len h
    match L with
    | 0 => simp [findMatchLoop] at h
    | 1 => simp [findMatchLoop] at h
    | 2 => simp [findMatchLoop] at h
    | l + 3 =>
      unfold findMatchLoop at h
      by_cases hg : X.length < pos + (l + 3)
      · rw [if_pos hg] at h
        obtain ⟨h1, h2, h3, h4, h5⟩ := ih (l + 2) (by omega) off len h
        refine ⟨h1, by omega, h3, h4, fun l' hl1 hl2 hl3 => ?_⟩
        rcases Nat.lt_or_ge l' (l + 3) with hc | hc
        · exact h5 l' hl1 (by omega) hl3
        · have : l' = l + 3 := by omega
          subst this
          omega
      · rw [if_neg hg] at h
        cases hidx : lastIndex w ((X.drop pos).take (l + 3)) with
        | some idx =>
          rw [hidx] at h
          cases h
          refine ⟨by omega, Nat.le_refl _, by omega, ⟨idx, hidx, rfl⟩,
            fun l' hl1 hl2 hl3 => by omega⟩
        | none =>
          rw [hidx] at h
          obtain ⟨h1, h2, h3, h4, h5⟩ := ih (l + 2) (by omega) off len h
          refine ⟨h1, by omega, h3, h4, fun l' hl1 hl2 hl3 => ?_⟩
          rcases Nat.lt_or_ge l' (l + 3) with hc | hc
          · exact h5 l' hl1 (by omega) hl3
          · have : l' = l + 3 := by omega
            subst this
            exact hidx

theorem findMatchLoop_none {X : List Nat} {pos ws : Nat} {w : List Nat} :
    ∀ L, findMatchLoop X pos ws w L = none →
      ∀ l, 3 ≤ l → l ≤ L → pos + l ≤ X.length →
        lastIndex w ((X.drop pos).take l) = none := by
  intro L
  induction L using Nat.strong_induction_on with
  | _ L ih =>
    intro h l hl1 hl2 hl3
    match L with
    | 0 => omega
    | 1 => omega
    | 2 => omega
    | L' + 3 =>
      unfold findMatchLoop at h
      by_cases hg : X.length < pos + (L' + 3)
      · rw [if_pos hg] at h
        exact ih (L' + 2) (by omega) h l hl1 (by omega) hl3
      · rw [if_neg hg] at h
        cases hidx : lastIndex w ((X.drop pos).take (L' + 3)) with
        | some idx =>
          rw [hidx] at h
          cases h
        | none =>
          rw [hidx] at h
          rcases Nat.lt_or_ge l (L' + 3) with hc | hc
          · exact ih (L' + 2) (by omega) h l hl1 (by omega) hl3
          · have : l = L' + 3 := by omega
            subst this
            exact hidx

/-- Facts about a successful `findMatch`: length and offset ranges, and the
byte equalities between the match source and the position's bytes. -/
theorem findMatch_some_facts {X : List Nat} {pos W L off len : Nat}
    (h : findMatch X pos W L = some (off, len)) :
    3 ≤ len ∧ len ≤ L ∧ pos + len ≤ X.length ∧ len ≤ off ∧ off ≤ W ∧ off ≤ pos ∧
      ∀ i, i < len → X.getD (pos - off + i) 0 = X.getD (pos + i) 0 := by
  unfold findMatch at h
  simp only [minMatchLength] at h
  by_cases hg1 : X.length < pos + 3
  · rw [if_pos hg1] at h
    cases h
  rw [if_neg hg1] at h
  set L' := if X.length < pos + L then X.length - pos else L with hLPdef
  by_cases hg2 : L' < 3
  · rw [if_pos hg2] at h
    cases h
  rw [if_neg hg2] at h
  set ws := pos - W with hws
  set w := (X.drop ws).take (pos - ws) with hwdef
  by_cases hg3 : w.length = 0
  · rw [if_pos hg3] at h
    cases h
  rw [if_neg hg3] at h
  obtain ⟨h1, h2, h3, ⟨idx, hidx, hoff⟩, _⟩ := findMatchLoop_some L' off len h
  have hpat : ((X.drop pos).take len).length = len := by
    rw [List.length_take, List.length_drop]
    omega
  obtain ⟨hb1, hb2, _⟩ := lastIndex_some (by omega) hidx
  have hwlen : w.length = pos - ws := by
    rw [hwdef, List.length_take, List.length_drop]
    omega
  have hidxlen : idx + len ≤ pos - ws := by
    rw [hwlen] at hb1
    omega
  have hLle : L' ≤ L := by
    rw [hLPdef]
    split <;> omega
  have hoff2 : off = pos - ws - idx := by omega
  rw [hpat] at hb2
  have hslice : (X.drop (ws + idx)).take len = (X.drop pos).take len := by
    rw [hwdef] at hb2
    rw [window_slice (by omega)] at hb2
    exact hb2
  refine ⟨h1, by omega, h3, by omega, by omega, by omega, ?_⟩
  have : pos - off = ws + idx := by omega
  rw [this]
  exact slice_eq_getD hslice

/-- Failure of `findMatch` means no occurrence of any candidate length exists
in the window span. -/
theorem findMatch_none_facts {X : List Nat} {pos W L : Nat}
    (h : findMatch X pos W L = none) :
    ∀ l s, 3 ≤ l → l ≤ min L (X.length - pos) → pos - W ≤ s → s + l ≤ pos →
      (X.drop s).take l ≠ (X.drop pos).take l := by
  intro l s hl1 hl2 hs1 hs2 heq
  unfold findMatch at h
  simp only [minMatchLength] at h
  by_cases hg1 : X.length < pos + 3
  · omega
  rw [if_neg hg1] at h
  set L' := if X.length < pos + L then X.length - pos else L with hLPdef
  have hlL' : l ≤ L' := by
    rw [hLPdef]
    split <;> omega
  by_cases hg2 : L' < 3
  · omega
  rw [if_neg hg2] at h
  set ws := pos - W with hws
  set w := (X.drop ws).take (pos - ws) with hwdef
  have hwlen : w.length = pos - ws := by
    rw [hwdef, List.length_take, List.length_drop]
    omega
  by_cases hg3 : w.length = 0
  · rw [hwlen] at hg3
    omega
  rw [if_neg hg3] at h
  have hnone := findMatchLoop_none L' h l hl1 hlL' (by omega)
  have hpat : ((X.drop pos).take l).length = l := by
    rw [List.length_take, List.length_drop]
    omega
  have hocc := lastIndex_none (by omega) hnone (s - ws)
  apply hocc
  rw [hpat, hwdef, window_slice (by omega)]
  have : ws + (s - ws) = s := by omega
  rw [this]
  exact heq

/-- C2: the match finder tries candidate lengths from the maximum
`min L (remaining)` down to 3; a reported match is an occurrence of the
position's pattern lying entirely in the window span before the position, is
of maximal length among all lengths in range that occur in the span, and among
occurrences of that length it is the one closest to the position (smallest
offset); if no length in range occurs in the span, no match is reported, and
the encoder turns the position into a Literal token. -/
theorem spec_C2_findMatch_policy (X : List Nat) (pos W L : Nat) :
    (∀ off len, findMatch X pos W L = some (off, len) →
      minMatchLength ≤ len ∧ len ≤ min L (X.length - pos) ∧
        len ≤ off ∧ off ≤ W ∧ off ≤ pos ∧
        (X.drop (pos - off)).take len = (X.drop pos).take len ∧
        (∀ s, pos - off < s → s + len ≤ pos →
          (X.drop s).take len ≠ (X.drop pos).take len) ∧
        (∀ l s, len < l → l ≤ min L (X.length - pos) → pos - W ≤ s → s + l ≤ pos →
          (X.drop s).take l ≠ (X.drop pos).take l)) ∧
    (findMatch X pos W L = none →
      ∀ l s, minMatchLength ≤ l → l ≤ min L (X.length - pos) → pos - W ≤ s →
        s + l ≤ pos → (X.drop s).take l ≠ (X.drop pos).take l) ∧
    (∀ fuel, pos < X.length →
      findMatch X pos (min pos maxWindowSize) (min (X.length - pos) maxEncodedLength) = none →
      tokensFrom X (fuel + 1) pos = Token.lit (X.getD pos 0) :: tokensFrom X fuel (pos + 1)) := by
  refine ⟨?_, ?_, ?_⟩
  · intro off len h
    obtain ⟨h1, h2, h3, h4, h5, h6, h7⟩ := findMatch_some_facts h
    have hmin : len ≤ min L (X.length - pos) := by omega
    refine ⟨h1, hmin, h4, h5, h6, ?_, ?_, ?_⟩
    · -- the occurrence at `pos - off`
      unfold findMatch at h
      simp only [minMatchLength] at h
      by_cases hg1 : X.length < pos + 3
      · rw [if_pos hg1] at h
        cases h
      rw [if_neg hg1] at h
      set L' := if X.length < pos + L then X.length - pos else L with hLPdef
      by_cases hg2 : L' < 3
      · rw [if_pos hg2] at h
        cases h
      rw [if_neg hg2] at h
      set ws := pos - W with hws
      set w := (X.drop ws).take (pos - ws) with hwdef
      by_cases hg3 : w.length = 0
      · rw [if_pos hg3] at h
        cases h
      rw [if_neg hg3] at h
      obtain ⟨_, _, _, ⟨idx, hidx, hoff⟩, _⟩ := findMatchLoop_some L' off len h
      have hpat : ((X.drop pos).take len).length = len := by
        rw [List.length_take, List.length_drop]
        omega
      obtain ⟨hb1, hb2, _⟩ := lastIndex_some (by omega) hidx
      have hwlen : w.length = pos - ws := by
        rw [hwdef, List.length_take, List.length_drop]
        omega
      have hidxlen : idx + len ≤ pos - ws := by
        rw [hwlen] at hb1
        omega
      have heq2 : pos - off = ws + idx := by omega
      rw [hpat] at hb2
      rw [hwdef] at hb2
      rw [window_slice (by omega)] at hb2
      rw [heq2]
      exact hb2
    · -- nearest occurrence of the accepted length
      intro s hs1 hs2 heq
      unfold findMatch at h
      simp only [minMatchLength] at h
      by_cases hg1 : X.length < pos + 3
      · rw [if_pos hg1] at h
        cases h
      rw [if_neg hg1] at h
      set L' := if X.length < pos + L then X.length - pos else L with hLPdef
      by_cases hg2 : L' < 3
      · rw [if_pos hg2] at h
        cases h
      rw [if_neg hg2] at h
      set ws := pos - W with hws
      set w := (X.drop ws).take (pos - ws) with hwdef
      by_cases hg3 : w.length = 0
      · rw [if_pos hg3] at h
        cases h
      rw [if_neg hg3] at h
      obtain ⟨_, _, _, ⟨idx, hidx, hoff⟩, _⟩ := findMatchLoop_some L' off len h
      have hpat : ((X.drop pos).take len).length = len := by
        rw [List.length_take, List.length_drop]
        omega
      obtain ⟨hb1, hb2, hb3⟩ := lastIndex_some (by omega) hidx
      have hwlen : w.length = pos - ws := by
        rw [hwdef, List.length_take, List.length_drop]
        omega
      have hidxlen : idx + len ≤ pos - ws := by
        rw [hwlen] at hb1
        omega
      have hsws : ws ≤ s := by omega
      apply hb3 (s - ws) (by omega)
      rw [hpat, hwdef, window_slice (by omega)]
      have : ws + (s - ws) = s := by omega
      rw [this]
      exact heq
    · -- no longer length occurs in the span
      intro l s hl1 hl2 hs1 hs2 heq
      unfold findMatch at h
      simp only [minMatchLength] at h
      by_cases hg1 : X.length < pos + 3
      · rw [if_pos hg1] at h
        cases h
      rw [if_neg hg1] at h
      set L' := if X.length < pos + L then X.length - pos else L with hLPdef
      have hlL' : l ≤ L' := by
        rw [hLPdef]
        split <;> omega
      by_cases hg2 : L' < 3
      · rw [if_pos hg2] at h
        cases h
      rw [if_neg hg2] at h
      set ws := pos - W with hws
      set w := (X.drop ws).take (pos - ws) with hwdef
      by_cases hg3 : w.length = 0
      · rw [if_pos hg3] at h
        cases h
      rw [if_neg hg3] at h
      obtain ⟨_, _, _, _, hlong⟩ := findMatchLoop_some L' off len h
      have hnone := hlong l hl1 hlL' (by omega)
      have hpat : ((X.drop pos).take l).length = l := by
        rw [List.length_take, List.length_drop]
        omega
      apply lastIndex_none (by omega) hnone (s - ws)
      rw [hpat, hwdef, window_slice (by omega)]
      have : ws + (s - ws) = s := by omega
      rw [this]
      exact heq
  · intro h l s hl1 hl2 hs1 hs2
    exact findMatch_none_facts h l s (by simpa [minMatchLength] using hl1) hl2 hs1 hs2
  · intro fuel hpos hnone
    conv_lhs => rw [tokensFrom]
    rw [if_neg (by omega), hnone]

/-! Token-level lemmas. -/

theorem tokensFrom_nil {X : List Nat} {f ip : Nat} (h : X.length ≤ ip) :
    tokensFrom X f ip = [] := by
  cases f with
  | zero => rfl
  | succ f =>
    conv_lhs => rw [tokensFrom]
    rw [if_pos h]

theorem tokensFrom_succ_none {X : List Nat} {f ip : Nat} (h : ip < X.length)
    (hfm : findMatch X ip (min ip maxWindowSize) (min (X.length - ip) maxEncodedLength) = none) :
    tokensFrom X (f + 1) ip = Token.lit (X.getD ip 0) :: tokensFrom X f (ip + 1) := by
  conv_lhs => rw [tokensFrom]
  rw [if_neg (by omega), hfm]

theorem tokensFrom_succ_some {X : List Nat} {f ip off len : Nat} (h : ip < X.length)
    (hfm : findMatch X ip (min ip maxWindowSize) (min (X.length - ip) maxEncodedLength)
      = some (off, len)) :
    tokensFrom X (f + 1) ip = Token.cpy off len :: tokensFrom X f (ip + len) := by
  conv_lhs => rw [tokensFrom]
  rw [if_neg (by omega), hfm]

/-- The token list does not depend on the fuel, provided fuel is adequate. -/
theorem tokensFrom_fuel {X : List Nat} :
    ∀ f g ip, X.length ≤ ip + f → X.length ≤ ip + g →
      tokensFrom X f ip = tokensFrom X g ip := by
  intro f
  induction f with
  | zero =>
    intro g ip h1 h2
    rw [tokensFrom_nil (by omega), tokensFrom_nil (by omega)]
  | succ f ih =>
    intro g ip h1 h2
    by_cases hip : X.length ≤ ip
    · rw [tokensFrom_nil hip, tokensFrom_nil hip]
    · have hip' : ip < X.length := by omega
      cases g with
      | zero => omega
      | succ g =>
        cases hfm : findMatch X ip (min ip maxWindowSize)
            (min (X.length - ip) maxEncodedLength) with
        | none =>
          rw [tokensFrom_succ_none hip' hfm, tokensFrom_succ_none hip' hfm,
            ih g (ip + 1) (by omega) (by omega)]
        | some v =>
          obtain ⟨off, len⟩ := v
          have hf := findMatch_some_facts hfm
          rw [tokensFrom_succ_some hip' hfm, tokensFrom_succ_some hip' hfm,
            ih g (ip + len) (by omega) (by omega)]

theorem sumLens_cons (t : Token) (ts : List Token) :
    sumLens (t :: ts) = tokLen t + sumLens ts := by
  simp [sumLens]

/-- The tokens cover exactly the remaining input. -/
theorem sumLens_tokensFrom {X : List Nat} :
    ∀ f ip, X.length ≤ ip + f → sumLens (tokensFrom X f ip) = X.length - ip := by
  intro f
  induction f with
  | zero =>
    intro ip h
    rw [tokensFrom_nil (by omega)]
    show 0 = X.length - ip
    omega
  | succ f ih =>
    intro ip h
    by_cases hip : X.length ≤ ip
    · rw [tokensFrom_nil hip]
      show 0 = X.length - ip
      omega
    · have hip' : ip < X.length := by omega
      cases hfm : findMatch X ip (min ip maxWindowSize)
          (min (X.length - ip) maxEncodedLength) with
      | none =>
        rw [tokensFrom_succ_none hip' hfm, sumLens_cons, ih (ip + 1) (by omega)]
        show 1 + (X.length - (ip + 1)) = X.length - ip
        omega
      | some v =>
        obtain ⟨off, len⟩ := v
        have hf := findMatch_some_facts hfm
        rw [tokensFrom_succ_some hip' hfm, sumLens_cons, ih (ip + len) (by omega)]
        show len + (X.length - (ip + len)) = X.length - ip
        omega

/-- Range facts for every Copy token the encoder's token extraction emits. -/
theorem tokensFrom_cpy_facts {X : List Nat} :
    ∀ f ip off len, Token.cpy off len ∈ tokensFrom X f ip →
      1 ≤ off ∧ off ≤ 4096 ∧ 3 ≤ len ∧ len ≤ 18 ∧ len ≤ off := by
  intro f
  induction f with
  | zero =>
    intro ip off len h
    rw [show tokensFrom X 0 ip = [] from rfl] at h
    cases h
  | succ f ih =>
    intro ip off len h
    by_cases hip : X.length ≤ ip
    · rw [tokensFrom_nil hip] at h
      cases h
    · have hip' : ip < X.length := by omega
      cases hfm : findMatch X ip (min ip maxWindowSize)
          (min (X.length - ip) maxEncodedLength) with
      | none =>
        rw [tokensFrom_succ_none hip' hfm] at h
        rcases List.mem_cons.mp h with heq | hmem
        · cases heq
        · exact ih (ip + 1) off len hmem
      | some v =>
        obtain ⟨off', len'⟩ := v
        rw [tokensFrom_succ_some hip' hfm] at h
        rcases List.mem_cons.mp h with heq | hmem
        · obtain ⟨h1, h2, h3, h4, h5, h6, _⟩ := findMatch_some_facts hfm
          cases heq
          have hW : min ip maxWindowSize ≤ 4096 := by
            simp [maxWindowSize]
          have hL : min (X.length - ip) maxEncodedLength ≤ 18 := by
            simp [maxEncodedLength]
          exact ⟨by omega, by omega, h1, by omega, by omega⟩
        · exact ih (ip + len') off len hmem

/-! Replay correctness: the decoder-side token semantics rebuilds the input. -/

theorem getD_take {X : List Nat} {i p : Nat} (h : i < p) :
    (X.take p).getD i 0 = X.getD i 0 := by
  simp [List.getD_eq_getElem?_getD, List.getElem?_take_of_lt h]

theorem take_append_getD {X : List Nat} {p : Nat} (h : p < X.length) :
    X.take p ++ [X.getD p 0] = X.take (p + 1) := by
  rw [List.take_succ]
  congr 1
  rw [List.getElem?_eq_getElem h]
  simp [List.getD_eq_getElem?_getD, List.getElem?_eq_getElem h]

/-- Running the decoder's copy loop on a prefix of `X` whose source bytes
match extends the prefix. -/
theorem copyStep_take {X : List Nat} :
    ∀ n p off, 0 < off → off ≤ p → p + n ≤ X.length →
      (∀ i, i < n → X.getD (p + i - off) 0 = X.getD (p + i) 0) →
      copyStep (X.take p) off n X.length = X.take (p + n) := by
  intro n
  induction n with
  | zero =>
    intro p off h1 h2 h3 h4
    rfl
  | succ n ih =>
    intro p off h1 h2 h3 h4
    have hlen : (X.take p).length = p := by
      rw [List.length_take]
      omega
    conv_lhs => rw [copyStep]
    rw [if_neg (by omega), if_neg (by omega), hlen]
    have hb : X.getD (p - off) 0 = X.getD p 0 := by
      have := h4 0 (by omega)
      simpa using this
    rw [getD_take (show p - off < p by omega), hb, take_append_getD (by omega)]
    rw [ih (p + 1) off h1 (by omega) (by omega) (fun i hi => by
      have := h4 (i + 1) (by omega)
      have harith : p + (i + 1) = p + 1 + i := by omega
      rw [harith] at this
      exact this)]
    congr 1
    omega

/-- Replaying the encoder's tokens from any position rebuilds the input. -/
theorem replay_tokensFrom {X : List Nat} :
    ∀ f ip, X.length ≤ ip + f → ip ≤ X.length →
      replayTokens X.length (X.take ip) (tokensFrom X f ip) = X := by
  intro f
  induction f with
  | zero =>
    intro ip h1 h2
    have : ip = X.length := by omega
    subst this
    rw [tokensFrom_nil (by omega)]
    simp [replayTokens]
  | succ f ih =>
    intro ip h1 h2
    by_cases hip : X.length ≤ ip
    · have : ip = X.length := by omega
      subst this
      rw [tokensFrom_nil (by omega)]
      simp [replayTokens]
    · have hip' : ip < X.length := by omega
      cases hfm : findMatch X ip (min ip maxWindowSize)
          (min (X.length - ip) maxEncodedLength) with
      | none =>
        rw [tokensFrom_succ_none hip' hfm, replayTokens, take_append_getD hip']
        exact ih (ip + 1) (by omega) (by omega)
      | some v =>
        obtain ⟨off, len⟩ := v
        obtain ⟨h1', h2', h3', h4', h5', h6', h7'⟩ := findMatch_some_facts hfm
        rw [tokensFrom_succ_some hip' hfm, replayTokens]
        rw [copyStep_take len ip off (by omega) h6' h3' (fun i hi => by
          have := h7' i hi
          have harith : ip + i - off = ip - off + i := by omega
          rw [harith]
          exact this)]
        exact ih (ip + len) (by omega) (by omega)

/-! Serialization bridge: the byte stream the compressor writes is the clean
serialization of its token decisions. -/

theorem flagRest_ge8 (ts : List Token) {bc : Nat} (h : 8 ≤ bc) :
    flagRest ts bc = 0 := by
  cases ts with
  | nil => rfl
  | cons t r =>
    rw [flagRest, if_neg (by omega)]

theorem tokBit_le (t : Token) : tokBit t ≤ 1 := by
  cases t <;> simp [tokBit]

theorem flagRest_lt : ∀ (ts : List Token) (bc : Nat), flagRest ts bc < 2 ^ (8 - bc) := by
  intro ts
  induction ts with
  | nil =>
    intro bc
    show 0 < 2 ^ (8 - bc)
    exact Nat.two_pow_pos _
  | cons t r ih =>
    intro bc
    by_cases hbc : bc < 8
    · rw [flagRest, if_pos hbc]
      have hr := ih (bc + 1)
      have he : 8 - (bc + 1) = 7 - bc := by omega
      rw [he] at hr
      have hp : 2 ^ (8 - bc) = 2 ^ (7 - bc) * 2 := by
        have : 8 - bc = (7 - bc) + 1 := by omega
        rw [this, pow_succ]
      rw [hp]
      cases t <;> simp only [tokBit] <;> omega
    · rw [flagRest, if_neg hbc]
      exact Nat.two_pow_pos _

theorem compressLoop_serialize {X : List Nat} {B : Nat} :
    ∀ fuel ip bc flag pending flagPos r,
      X.length ≤ ip + fuel → bc < 8 → 2 ^ (8 - bc) ∣ flag →
      compressLoop X B fuel ip bc flag pending flagPos = Except.ok r →
      r = (flag + flagRest (tokensFrom X (X.length - ip) ip) bc) ::
        (pending ++ serializeBody (tokensFrom X (X.length - ip) ip) bc) := by
  intro fuel
  induction fuel with
  | zero =>
    intro ip bc flag pending flagPos r hfuel hbc hdvd h
    cases h
  | succ fuel ih =>
    intro ip bc flag pending flagPos r hfuel hbc hdvd h
    rw [compressLoop] at h
    by_cases hip : X.length ≤ ip
    · rw [if_pos hip] at h
      cases h
      have h0 : X.length - ip = 0 := by omega
      rw [h0]
      show flag :: pending = (flag + flagRest [] bc) :: (pending ++ serializeBody [] bc)
      simp [flagRest, serializeBody]
    · have hip' : ip < X.length := by omega
      rw [if_neg hip] at h
      dsimp only at h
      by_cases hopB : B ≤ flagPos + 1 + pending.length
      · rw [if_pos hopB] at h
        cases h
      rw [if_neg hopB] at h
      have hexpfuel : X.length - ip = (X.length - (ip + 1)) + 1 := by omega
      cases hfm : findMatch X ip (min ip maxWindowSize)
          (min (X.length - ip) maxEncodedLength) with
      | none =>
        rw [hfm] at h
        dsimp only at h
        by_cases hbc8 : bc + 1 = 8
        · rw [if_pos hbc8, if_neg hopB] at h
          by_cases hop1 : B ≤ flagPos + 1 + pending.length + 1
          · rw [if_pos hop1] at h
            cases h
          rw [if_neg hop1] at h
          cases hrec : compressLoop X B fuel (ip + 1) 0 0 [X.getD ip 0]
              (flagPos + 1 + pending.length) with
          | error e =>
            rw [hrec] at h
            cases h
          | ok r2 =>
            rw [hrec] at h
            have h2 : Except.ok (ε := CompErr) (flag :: (pending ++ r2)) = Except.ok r := h
            cases h2
            have hr2 := ih (ip + 1) 0 0 [X.getD ip 0] (flagPos + 1 + pending.length) r2
              (by omega) (by omega) (dvd_zero _) hrec
            have hbc7 : bc = 7 := by omega
            subst hbc7
            rw [hexpfuel, tokensFrom_succ_none hip' hfm]
            rw [flagRest, serializeBody]
            rw [if_pos (show (7 : Nat) < 8 by norm_num), if_pos rfl]
            rw [flagRest_ge8 _ (by omega)]
            simp only [tokBit, tokBytes]
            rw [hr2]
            simp [flagRest_ge8]
        · rw [if_neg hbc8, if_neg hopB] at h
          have hr := ih (ip + 1) (bc + 1) flag (pending ++ [X.getD ip 0]) flagPos r
            (by omega) (by omega)
            (by
              have hstep : (2 : Nat) ^ (8 - (bc + 1)) ∣ 2 ^ (8 - bc) :=
                pow_dvd_pow 2 (by omega)
              exact dvd_trans hstep hdvd) h
          rw [hexpfuel, tokensFrom_succ_none hip' hfm]
          rw [flagRest, serializeBody]
          rw [if_pos (show bc < 8 by omega), if_neg (show ¬ bc = 7 by omega)]
          simp only [tokBit, tokBytes]
          rw [hr]
          simp [List.append_assoc]
      | some v =>
        obtain ⟨off, len⟩ := v
        obtain ⟨hlen3, _, hiplen, _, _, _, _⟩ := findMatch_some_facts hfm
        rw [hfm] at h
        dsimp only at h
        have hflag2 : flag ||| 1 <<< (7 - bc) = flag + 2 ^ (7 - bc) := by
          rw [Nat.shiftLeft_eq, one_mul]
          have he : 8 - bc = (7 - bc) + 1 := by omega
          rw [he] at hdvd
          exact lorBitOfDvd hdvd
        have hexp2 : tokensFrom X (X.length - ip) ip =
            Token.cpy off len :: tokensFrom X (X.length - (ip + len)) (ip + len) := by
          rw [hexpfuel, tokensFrom_succ_some hip' hfm]
          rw [tokensFrom_fuel (X.length - (ip + 1)) (X.length - (ip + len)) (ip + len)
            (by omega) (by omega)]
        by_cases hbc8 : bc + 1 = 8
        · rw [if_pos hbc8, if_neg hopB] at h
          by_cases hop2 : B ≤ flagPos + 1 + pending.length + 2
          · rw [if_pos hop2] at h
            cases h
          rw [if_neg hop2] at h
          cases hrec : compressLoop X B fuel (ip + len) 0 0 (encodePairBytes off len)
              (flagPos + 1 + pending.length) with
          | error e =>
            rw [hrec] at h
            cases h
          | ok r2 =>
            rw [hrec] at h
            have h2 : Except.ok (ε := CompErr)
                ((flag ||| 1 <<< (7 - bc)) :: (pending ++ r2)) = Except.ok r := h
            cases h2
            have hr2 := ih (ip + len) 0 0 (encodePairBytes off len)
              (flagPos + 1 + pending.length) r2 (by omega) (by omega) (dvd_zero _) hrec
            have hbc7 : bc = 7 := by omega
            subst hbc7
            rw [hexp2]
            rw [flagRest, serializeBody]
            rw [if_pos (show (7 : Nat) < 8 by norm_num), if_pos rfl]
            rw [flagRest_ge8 _ (by omega)]
            simp only [tokBit, tokBytes]
            rw [hr2, hflag2]
            simp [flagRest_ge8]
        · rw [if_neg hbc8] at h
          by_cases hop1 : B ≤ flagPos + 1 + pending.length + 1
          · rw [if_pos hop1] at h
            cases h
          rw [if_neg hop1] at h
          have hr := ih (ip + len) (bc + 1) (flag ||| 1 <<< (7 - bc))
            (pending ++ encodePairBytes off len) flagPos r (by omega) (by omega)
            (by
              rw [hflag2]
              have hstep : (2 : Nat) ^ (8 - (bc + 1)) ∣ 2 ^ (8 - bc) :=
                pow_dvd_pow 2 (by omega)
              have hd1 : (2 : Nat) ^ (8 - (bc + 1)) ∣ flag := dvd_trans hstep hdvd
              have hd2 : (2 : Nat) ^ (8 - (bc + 1)) ∣ 2 ^ (7 - bc) := by
                have he2 : 8 - (bc + 1) = 7 - bc := by omega
                rw [he2]
              exact dvd_add hd1 hd2) h
          rw [hexp2, flagRest, serializeBody]
          rw [if_pos (show bc < 8 by omega), if_neg (show ¬ bc = 7 by omega)]
          simp only [tokBit, tokBytes]
          rw [hr, hflag2]
          simp [List.append_assoc, Nat.add_assoc]

/-! Decoder-side helpers. -/

theorem pow_split {bc : Nat} (hbc : bc < 8) : 2 ^ (7 - bc) * 2 ^ bc = 128 := by
  rw [← pow_add]
  have : 7 - bc + bc = 7 := by omega
  rw [this]
  norm_num

/-- Top-bit test on a control byte holding bit `b` at the MSB followed by the
remaining bits. -/
theorem ctrlTopBit {b fr bc : Nat} (hbc : bc < 8) (hb : b ≤ 1)
    (hfr : fr < 2 ^ (7 - bc)) :
    ((b * 2 ^ (7 - bc) + fr) * 2 ^ bc &&& 128 ≠ 0) ↔ b = 1 := by
  have hp : 0 < 2 ^ bc := Nat.two_pow_pos bc
  have hfr2 : fr * 2 ^ bc < 128 := by
    calc fr * 2 ^ bc < 2 ^ (7 - bc) * 2 ^ bc := by
          exact Nat.mul_lt_mul_of_lt_of_le hfr (Nat.le_refl _) hp
      _ = 128 := pow_split hbc
  have hexpand : (b * 2 ^ (7 - bc) + fr) * 2 ^ bc = b * 128 + fr * 2 ^ bc := by
    rw [Nat.add_mul, Nat.mul_assoc, pow_split hbc]
  have hlt : (b * 2 ^ (7 - bc) + fr) * 2 ^ bc < 256 := by
    rw [hexpand]
    omega
  rw [andTopBit _ hlt, hexpand]
  omega

/-- Shifting the control byte left consumes its top bit. -/
theorem ctrlShift {b fr bc : Nat} (hbc : bc < 8) (_hb : b ≤ 1)
    (hfr : fr < 2 ^ (7 - bc)) :
    (((b * 2 ^ (7 - bc) + fr) * 2 ^ bc) <<< 1) % 256 = fr * 2 ^ (bc + 1) := by
  have hp : 0 < 2 ^ bc := Nat.two_pow_pos bc
  have hfr2 : fr * 2 ^ (bc + 1) < 256 := by
    calc fr * 2 ^ (bc + 1) < 2 ^ (7 - bc) * 2 ^ (bc + 1) := by
          exact Nat.mul_lt_mul_of_lt_of_le hfr (Nat.le_refl _) (Nat.two_pow_pos _)
      _ = 2 ^ (7 - bc) * 2 ^ bc * 2 := by rw [pow_succ]; ring
      _ = 256 := by rw [pow_split hbc]
  have hexpand : ((b * 2 ^ (7 - bc) + fr) * 2 ^ bc) <<< 1 = b * 256 + fr * 2 ^ (bc + 1) := by
    rw [Nat.shiftLeft_eq, pow_one]
    calc (b * 2 ^ (7 - bc) + fr) * 2 ^ bc * 2
        = b * (2 ^ (7 - bc) * 2 ^ bc * 2) + fr * (2 ^ bc * 2) := by ring
      _ = b * 256 + fr * 2 ^ (bc + 1) := by rw [pow_split hbc, ← pow_succ]
  rw [hexpand]
  omega

theorem copyStep_length_le {t : Nat} :
    ∀ n (out : List Nat) off, out.length ≤ t → (copyStep out off n t).length ≤ t := by
  intro n
  induction n with
  | zero =>
    intro out off h
    exact h
  | succ n ih =>
    intro out off h
    rw [copyStep]
    by_cases ht : t ≤ out.length
    · rw [if_pos ht]
      exact h
    · rw [if_neg ht]
      apply ih
      rw [List.length_append]
      simp only [List.length_singleton]
      omega

theorem copyStep_length_exact {t : Nat} :
    ∀ n (out : List Nat) off, out.length + n ≤ t →
      (copyStep out off n t).length = out.length + n := by
  intro n
  induction n with
  | zero =>
    intro out off h
    rfl
  | succ n ih =>
    intro out off h
    rw [copyStep, if_neg (by omega)]
    rw [ih _ off (by rw [List.length_append]; simp only [List.length_singleton]; omega)]
    rw [List.length_append]
    simp only [List.length_singleton]
    omega

theorem drop_cons_facts {S : List Nat} {idx : Nat} {b : Nat} {rest : List Nat}
    (h : S.drop idx = b :: rest) :
    S.getD idx 0 = b ∧ S.drop (idx + 1) = rest ∧ idx < S.length := by
  have h1 : S[idx]? = some b := by
    have := congrArg (fun l => l[0]?) h
    simpa [List.getElem?_drop] using this
  refine ⟨?_, ?_, ?_⟩
  · simp [List.getD_eq_getElem?_getD, h1]
  · have : S.drop (idx + 1) = (S.drop idx).drop 1 := by
      rw [List.drop_drop]
    rw [this, h]
    rfl
  · by_contra hc
    have : S[idx]? = none := List.getElem?_eq_none (by omega)
    rw [this] at h1
    cases h1

theorem serializeBody_cons_ne_nil (tk : Token) (rest : List Token) (bc : Nat) :
    serializeBody (tk :: rest) bc ≠ [] := by
  rw [serializeBody]
  by_cases hbc : bc = 7
  · rw [if_pos hbc]
    simp
  · rw [if_neg hbc]
    cases tk <;> simp [tokBytes, encodePairBytes]

/-- Simulation of the decompressor loop on a serialized token list: from a
state aligned with bit position `bc` of the current control byte, the decoder
returns exactly the replay of the remaining tokens. -/
theorem decompLoop_serialize {S : List Nat} {t : Nat} :
    ∀ ts fuel bc (out : List Nat) idx,
      bc < 8 →
      S.drop idx = serializeBody ts bc →
      (∀ off len, Token.cpy off len ∈ ts → 1 ≤ off ∧ off ≤ 4096 ∧ 3 ≤ len ∧ len ≤ 18) →
      out.length + sumLens ts = t →
      sumLens ts < fuel →
      decompLoop S t fuel idx (flagRest ts bc * 2 ^ bc) (8 - bc) out =
        Except.ok (replayTokens t out ts) := by
  intro ts
  induction ts with
  | nil =>
    intro fuel bc out idx hbc hdrop hvalid hsum hfuel
    have h0 : sumLens ([] : List Token) = 0 := rfl
    rw [h0] at hsum hfuel
    cases fuel with
    | zero => omega
    | succ f =>
      rw [decompLoop, if_pos (by omega)]
      rfl
  | cons tk rest ih =>
    intro fuel bc out idx hbc hdrop hvalid hsum hfuel
    have hsumc : sumLens (tk :: rest) = tokLen tk + sumLens rest := sumLens_cons tk rest
    have htl1 : 1 ≤ tokLen tk := by
      cases tk with
      | lit b => simp [tokLen]
      | cpy off len =>
        have := hvalid off len (List.mem_cons_self _ _)
        simp only [tokLen]
        omega
    have hout : out.length < t := by omega
    have hvrest : ∀ off len, Token.cpy off len ∈ rest →
        1 ≤ off ∧ off ≤ 4096 ∧ 3 ≤ len ∧ len ≤ 18 :=
      fun off len hm => hvalid off len (List.mem_cons_of_mem _ hm)
    have hidxlt : idx < S.length := by
      by_contra hc
      rw [List.drop_eq_nil_of_le (by omega)] at hdrop
      exact serializeBody_cons_ne_nil tk rest bc hdrop.symm
    cases fuel with
    | zero => omega
    | succ f =>
      rw [decompLoop, if_neg (by omega), if_neg (show ¬ S.length < idx by omega)]
      dsimp only
      have hfr2 : flagRest rest (bc + 1) < 2 ^ (7 - bc) := by
        have := flagRest_lt rest (bc + 1)
        have he : 8 - (bc + 1) = 7 - bc := by omega
        rw [he] at this
        exact this
      by_cases hbc7 : bc = 7
      · -- 8th bit of the control byte: the next control byte is read before
        -- the token's bytes.
        subst hbc7
        rw [serializeBody, if_pos rfl] at hdrop
        obtain ⟨hg1, hd1, _⟩ := drop_cons_facts hdrop
        rw [if_pos (show (8 : Nat) - 7 - 1 = 0 by norm_num),
          if_neg (show ¬ S.length ≤ idx by omega)]
        dsimp only
        have hfrc : flagRest (tk :: rest) 7 = tokBit tk * 2 ^ (7 - 7) + flagRest rest 8 := by
          rw [flagRest, if_pos (by norm_num)]
        rw [flagRest_ge8 rest (by norm_num)] at hfrc
        cases tk with
        | lit b =>
          have hfr0 : flagRest (Token.lit b :: rest) 7 = 0 := by
            rw [hfrc]
            simp [tokBit]
          rw [hfr0, if_neg (by norm_num)]
          rw [show tokBytes (Token.lit b) ++ serializeBody rest 0 = b :: serializeBody rest 0
            from rfl] at hd1
          obtain ⟨hg2, hd2, hlt2⟩ := drop_cons_facts hd1
          rw [if_neg (show ¬ S.length ≤ idx + 1 by omega), if_neg (by omega)]
          rw [hg1, hg2, replayTokens]
          have hrec := ih f 0 (out ++ [b]) (idx + 1 + 1) (by norm_num) (by exact hd2)
            hvrest (by
              rw [List.length_append]
              simp only [List.length_singleton]
              rw [hsumc] at hsum
              simp only [tokLen] at hsum
              omega)
            (by
              rw [hsumc] at hfuel
              simp only [tokLen] at hfuel
              omega)
          simpa using hrec
        | cpy off len =>
          have hv := hvalid off len (List.mem_cons_self _ _)
          have hfr1 : flagRest (Token.cpy off len :: rest) 7 = 1 := by
            rw [hfrc]
            simp [tokBit]
          rw [hfr1, if_pos (by decide)]
          have hd1' : S.drop (idx + 1) = (encodePairVal off len &&& 255) ::
              ((encodePairVal off len >>> 8) &&& 255) :: serializeBody rest 0 := by
            rw [hd1]
            simp [tokBytes, encodePairBytes]
          obtain ⟨hg2, hd2, hlt2⟩ := drop_cons_facts hd1'
          obtain ⟨hg3, hd3, hlt3⟩ := drop_cons_facts hd2
          rw [if_neg (show ¬ S.length ≤ idx + 1 + 1 by omega)]
          rw [hg1, hg2, hg3]
          have hdec := decode_encodePair hv.1 hv.2.1 hv.2.2.1 hv.2.2.2
          rw [hdec.1, hdec.2, replayTokens]
          have hlenc : (copyStep out off len t).length = out.length + len := by
            apply copyStep_length_exact
            rw [hsumc] at hsum
            simp only [tokLen] at hsum
            omega
          have hrec := ih f 0 (copyStep out off len t) (idx + 1 + 2) (by norm_num)
            (by exact hd3) hvrest
            (by
              rw [hlenc]
              rw [hsumc] at hsum
              simp only [tokLen] at hsum
              omega)
            (by
              rw [hsumc] at hfuel
              simp only [tokLen] at hfuel
              omega)
          simpa using hrec
      · -- interior control bit: the shifted control byte is used.
        rw [serializeBody, if_neg hbc7] at hdrop
        rw [if_neg (show ¬ (8 - bc - 1 = 0) by omega)]
        dsimp only
        have hfrc : flagRest (tk :: rest) bc =
            tokBit tk * 2 ^ (7 - bc) + flagRest rest (bc + 1) := by
          rw [flagRest, if_pos hbc]
        cases tk with
        | lit b =>
          rw [hfrc]
          simp only [tokBit]
          rw [if_neg (by
            intro hc
            have := (ctrlTopBit hbc (by norm_num) hfr2).mp hc
            omega)]
          rw [show tokBytes (Token.lit b) ++ serializeBody rest (bc + 1)
            = b :: serializeBody rest (bc + 1) from rfl] at hdrop
          obtain ⟨hg1, hd1, _⟩ := drop_cons_facts hdrop
          rw [if_neg (show ¬ S.length ≤ idx by omega), if_neg (by omega)]
          rw [hg1, replayTokens]
          rw [ctrlShift hbc (by norm_num) hfr2]
          have hrec := ih f (bc + 1) (out ++ [b]) (idx + 1) (by omega) (by exact hd1)
            hvrest (by
              rw [List.length_append]
              simp only [List.length_singleton]
              rw [hsumc] at hsum
              simp only [tokLen] at hsum
              omega)
            (by
              rw [hsumc] at hfuel
              simp only [tokLen] at hfuel
              omega)
          exact hrec
        | cpy off len =>
          have hv := hvalid off len (List.mem_cons_self _ _)
          rw [hfrc]
          simp only [tokBit]
          rw [if_pos (by
            apply (ctrlTopBit hbc (by norm_num) hfr2).mpr
            rfl)]
          have hd0 : S.drop idx = (encodePairVal off len &&& 255) ::
              ((encodePairVal off len >>> 8) &&& 255) :: serializeBody rest (bc + 1) := by
            rw [hdrop]
            simp [tokBytes, encodePairBytes]
          obtain ⟨hg1, hd1, _⟩ := drop_cons_facts hd0
          obtain ⟨hg2, hd2, hlt2⟩ := drop_cons_facts hd1
          rw [if_neg (show ¬ S.length ≤ idx + 1 by omega)]
          rw [hg1, hg2]
          have hdec := decode_encodePair hv.1 hv.2.1 hv.2.2.1 hv.2.2.2
          rw [hdec.1, hdec.2, replayTokens]
          rw [ctrlShift hbc (by norm_num) hfr2]
          have hlenc : (copyStep out off len t).length = out.length + len := by
            apply copyStep_length_exact
            rw [hsumc] at hsum
            simp only [tokLen] at hsum
            omega
          have hrec := ih f (bc + 1) (copyStep out off len t) (idx + 2) (by omega)
            (by exact hd2) hvrest
            (by
              rw [hlenc]
              rw [hsumc] at hsum
              simp only [tokLen] at hsum
              omega)
            (by
              rw [hsumc] at hfuel
              simp only [tokLen] at hfuel
              omega)
          exact hrec

/-- The compressor's successful output is the serialization of its token
decisions. -/
theorem coreCompressV1_serialize {X s : List Nat} (hX : X.length ≠ 0)
    (h : coreCompressV1 X = Except.ok s) : s = serialize (tokens X) := by
  unfold coreCompressV1 at h
  rw [if_neg hX] at h
  dsimp only at h
  rw [if_neg (by simp only [outputBufferSlack]; split <;> split <;> omega)] at h
  have hres := compressLoop_serialize (X.length + 1) 0 0 0 [] 0 s (by omega) (by omega)
    (by simp) h
  rw [hres]
  unfold serialize tokens
  simp

/-- Decoding the serialization of the encoder's tokens yields the input. -/
theorem decompress_serialize_tokens (X : List Nat) :
    lzssSimpleDecompress (serialize (tokens X)) X.length = Except.ok X := by
  unfold lzssSimpleDecompress serialize
  rw [if_neg (by simp)]
  have hd : (flagRest (tokens X) 0 :: serializeBody (tokens X) 0).getD 0 0
      = flagRest (tokens X) 0 := rfl
  rw [hd]
  have hrec := decompLoop_serialize (S := flagRest (tokens X) 0 :: serializeBody (tokens X) 0)
    (t := X.length) (tokens X) (X.length + 1) 0 [] 1 (by norm_num) (by rfl)
    (fun off len hm => by
      have := tokensFrom_cpy_facts X.length 0 off len hm
      exact ⟨this.1, this.2.1, this.2.2.1, this.2.2.2.1⟩)
    (by
      show 0 + sumLens (tokens X) = X.length
      rw [show sumLens (tokens X) = X.length - 0 from sumLens_tokensFrom X.length 0 (by omega)]
      omega)
    (by
      rw [show sumLens (tokens X) = X.length - 0 from sumLens_tokensFrom X.length 0 (by omega)]
      omega)
  have hreplay : replayTokens X.length [] (tokens X) = X := by
    have := replay_tokensFrom (X := X) X.length 0 (by omega) (by omega)
    simpa using this
  rw [hreplay] at hrec
  simpa using hrec

/-- C1: for every byte sequence `X`, decoding the token stream produced by
encoding `X` (when encoding succeeds and produces one), with `X.length` as the
declared uncompressed size, succeeds and returns exactly `X`. -/
theorem spec_C1_roundtrip : ∀ (X s : List Nat),
    coreCompressV1 X = Except.ok s →
    lzssSimpleDecompress s X.length = Except.ok X := by
  intro X s h
  by_cases hX : X.length = 0
  · have hXnil : X = [] := List.length_eq_zero.mp hX
    subst hXnil
    have h2 : Except.ok (ε := CompErr) ([] : List Nat) = Except.ok s := h
    cases h2
    rfl
  · rw [coreCompressV1_serialize hX h]
    exact decompress_serialize_tokens X

/-- Witness for C1 at a concrete input: ten bytes `0x41`. -/
theorem spec_C1_roundtrip_witness :
    coreCompressV1 (List.replicate 10 65) = Except.ok [24, 65, 65, 65, 32, 0, 49, 0] ∧
      lzssSimpleDecompress [24, 65, 65, 65, 32, 0, 49, 0] (List.replicate 10 65).length =
        Except.ok (List.replicate 10 65) :=
  ⟨by rfl, spec_C1_roundtrip (List.replicate 10 65) [24, 65, 65, 65, 32, 0, 49, 0] (by rfl)⟩

/-- Witness for C2: at position 6 of ten `0x41` bytes with the encoder's
bounds, the reported match (offset 4, length 4) is an occurrence. -/
theorem spec_C2_findMatch_policy_witness :
    ((List.replicate 10 65).drop (6 - 4)).take 4 = ((List.replicate 10 65).drop 6).take 4 :=
  (((spec_C2_findMatch_policy (List.replicate 10 65) 6 6 4).1 4 4 (by decide)).2.2.2.2.2.1)

/-- C9: every Copy token the encoder emits has offset in `[1, 4096]` and
length in `[3, 18]`, the packed two-byte encoding decodes back to exactly that
offset and length, and every Literal token serializes to exactly its one input
byte. -/
theorem spec_C9_token_invariant (X : List Nat) :
    (∀ off len, Token.cpy off len ∈ tokens X →
      (1 ≤ off ∧ off ≤ 4096 ∧ 3 ≤ len ∧ len ≤ 18) ∧
        decodeOffset (encodePairVal off len &&& 255) ((encodePairVal off len >>> 8) &&& 255)
          = off ∧
        decodeCount (encodePairVal off len &&& 255) = len) ∧
    (∀ b, Token.lit b ∈ tokens X → tokBytes (Token.lit b) = [b]) := by
  constructor
  · intro off len hm
    obtain ⟨h1, h2, h3, h4, _⟩ := tokensFrom_cpy_facts X.length 0 off len hm
    have hdec := decode_encodePair h1 h2 h3 h4
    exact ⟨⟨h1, h2, h3, h4⟩, hdec.1, hdec.2⟩
  · intro b _
    rfl

/-- Witness for C9: the Copy token (offset 3, length 3) emitted for ten
`0x41` bytes decodes back from its packed bytes. -/
theorem spec_C9_token_invariant_witness :
    decodeOffset (encodePairVal 3 3 &&& 255) ((encodePairVal 3 3 >>> 8) &&& 255) = 3 ∧
      decodeCount (encodePairVal 3 3 &&& 255) = 3 :=
  ⟨((spec_C9_token_invariant (List.replicate 10 65)).1 3 3 (by decide)).2.1,
   ((spec_C9_token_invariant (List.replicate 10 65)).1 3 3 (by decide)).2.2⟩

/-- C10: every Copy token the encoder emits satisfies `length ≤ offset`; the
match source lies entirely before the current position, so back-references
never overlap the bytes they produce. -/
theorem spec_C10_offset_ge_length (X : List Nat) :
    ∀ off len, Token.cpy off len ∈ tokens X → len ≤ off := by
  intro off len hm
  exact (tokensFrom_cpy_facts X.length 0 off len hm).2.2.2.2

/-- Witness for C10 at the first Copy token of ten `0x41` bytes. -/
theorem spec_C10_offset_ge_length_witness : (3 : Nat) ≤ 3 :=
  spec_C10_offset_ge_length (List.replicate 10 65) 3 3 (by decide)

theorem getD_append_left {xs ys : List Nat} {i : Nat} (h : i < xs.length) :
    (xs ++ ys).getD i 0 = xs.getD i 0 := by
  simp [List.getD_eq_getElem?_getD, List.getElem?_append_left h]

theorem getD_append_right {xs ys : List Nat} {i : Nat} (h : xs.length ≤ i) :
    (xs ++ ys).getD i 0 = ys.getD (i - xs.length) 0 := by
  simp [List.getD_eq_getElem?_getD, List.getElem?_append_right h]

/-- C6: the decoder's processing of a Copy token never fails: it appends
until the count is consumed or the target size is reached, the existing
output is untouched, and each produced byte is zero when the offset reaches
before the start of the output at the moment of that byte's production, and
otherwise is the byte at `currentOutputLength - offset` at that moment (so an
offset smaller than the remaining count re-reads freshly produced bytes,
yielding repeating runs). -/
theorem spec_C6_copy_zero_fill :
    ∀ (cnt : Nat) (out : List Nat) (off t : Nat),
      (copyStep out off cnt t).length = min (out.length + cnt) (max out.length t) ∧
      (∀ i, i < out.length → (copyStep out off cnt t).getD i 0 = out.getD i 0) ∧
      (∀ j, out.length + j < (copyStep out off cnt t).length →
        (copyStep out off cnt t).getD (out.length + j) 0 =
          if out.length + j < off then 0
          else (copyStep out off cnt t).getD (out.length + j - off) 0) := by
  intro cnt
  induction cnt with
  | zero =>
    intro out off t
    refine ⟨?_, fun i _ => rfl, fun j hj => ?_⟩
    · show out.length = min (out.length + 0) (max out.length t)
      omega
    · exact absurd hj (by show ¬ out.length + j < out.length; omega)
  | succ cnt ih =>
    intro out off t
    by_cases ht : t ≤ out.length
    · rw [copyStep, if_pos ht]
      refine ⟨by omega, fun i _ => rfl, fun j hj => ?_⟩
      exact absurd hj (by show ¬ out.length + j < out.length; omega)
    · rw [copyStep, if_neg ht]
      set b := if out.length < off then 0 else out.getD (out.length - off) 0 with hbdef
      obtain ⟨iha, ihb, ihc⟩ := ih (out ++ [b]) off t
      have hlen1 : (out ++ [b]).length = out.length + 1 := by
        rw [List.length_append]
        rfl
      have hpre : ∀ i, i < out.length →
          (copyStep (out ++ [b]) off cnt t).getD i 0 = out.getD i 0 := by
        intro i hi
        rw [ihb i (by omega), getD_append_left hi]
      have hb0 : (copyStep (out ++ [b]) off cnt t).getD out.length 0 = b := by
        rw [ihb out.length (by omega), getD_append_right (Nat.le_refl _)]
        simp
      refine ⟨by rw [iha, hlen1]; omega, hpre, ?_⟩
      intro j hj
      cases j with
      | zero =>
        rw [Nat.add_zero, hb0]
        by_cases hoff : out.length < off
        · have hbv : b = 0 := by rw [hbdef, if_pos hoff]
          rw [if_pos hoff]
          exact hbv
        · have hbv : b = out.getD (out.length - off) 0 := by rw [hbdef, if_neg hoff]
          rw [if_neg hoff]
          by_cases hoff0 : off = 0
          · subst hoff0
            simp only [Nat.sub_zero]
            rw [hb0]
          · rw [hpre (out.length - off) (by omega)]
            exact hbv
      | succ j =>
        have := ihc j (by rw [hlen1]; omega)
        rw [hlen1] at this
        have harith : out.length + 1 + j = out.length + (j + 1) := by omega
        rw [harith] at this
        exact this

/-- Witness for C6: a concrete copy with offset 2 over output `[7]`,
zero-filling the first byte and then re-reading produced bytes. -/
theorem spec_C6_copy_zero_fill_witness :
    (copyStep [7] 2 3 9).length = min ([7].length + 3) (max [7].length 9) ∧
      (copyStep [7] 2 3 9).getD ([7].length + 0) 0 =
        (if [7].length + 0 < 2 then 0
         else (copyStep [7] 2 3 9).getD ([7].length + 0 - 2) 0) :=
  ⟨(spec_C6_copy_zero_fill 3 [7] 2 9).1,
   (spec_C6_copy_zero_fill 3 [7] 2 9).2.2 0 (by decide)⟩

/-! Decoder output-length invariant. -/

theorem decompLoop_ok_length {S : List Nat} {t : Nat} :
    ∀ fuel idx ctrl bl (out r : List Nat), out.length ≤ t →
      decompLoop S t fuel idx ctrl bl out = Except.ok r → r.length = t := by
  intro fuel
  induction fuel with
  | zero =>
    intro idx ctrl bl out r hle h
    cases h
  | succ fuel ih =>
    intro idx ctrl bl out r hle h
    rw [decompLoop] at h
    by_cases h1 : t ≤ out.length
    · rw [if_pos h1] at h
      cases h
      omega
    rw [if_neg h1] at h
    by_cases h2 : S.length < idx
    · rw [if_pos h2] at h
      cases h
    rw [if_neg h2] at h
    dsimp only at h
    by_cases h3 : bl - 1 = 0
    · rw [if_pos h3] at h
      by_cases h4 : S.length ≤ idx
      · rw [if_pos h4] at h
        dsimp only at h
        rw [if_pos (show out.length < t by omega)] at h
        cases h
      · rw [if_neg h4] at h
        dsimp only at h
        by_cases h5 : ctrl &&& 128 ≠ 0
        · rw [if_pos h5] at h
          by_cases h6 : S.length ≤ idx + 1 + 1
          · rw [if_pos h6] at h
            cases h
          · rw [if_neg h6] at h
            exact ih _ _ _ _ r (copyStep_length_le _ _ _ (by omega)) h
        · rw [if_neg h5] at h
          by_cases h6 : S.length ≤ idx + 1
          · rw [if_pos h6] at h
            cases h
          · rw [if_neg h6, if_neg h1] at h
            refine ih _ _ _ _ r ?_ h
            rw [List.length_append]
            simp only [List.length_singleton]
            omega
    · rw [if_neg h3] at h
      dsimp only at h
      by_cases h5 : ctrl &&& 128 ≠ 0
      · rw [if_pos h5] at h
        by_cases h6 : S.length ≤ idx + 1
        · rw [if_pos h6] at h
          cases h
        · rw [if_neg h6] at h
          exact ih _ _ _ _ r (copyStep_length_le _ _ _ (by omega)) h
      · rw [if_neg h5] at h
        by_cases h6 : S.length ≤ idx
        · rw [if_pos h6] at h
          cases h
        · rw [if_neg h6, if_neg h1] at h
          refine ih _ _ _ _ r ?_ h
          rw [List.length_append]
          simp only [List.length_singleton]
          omega

/-- C7: truncation is never silent.  A successful decompression returns
exactly the declared target size, and an empty stream with a non-zero target
is the dedicated error rather than a short result. -/
theorem spec_C7_no_silent_truncation : ∀ (S : List Nat) (t : Nat),
    (∀ out, lzssSimpleDecompress S t = Except.ok out → out.length = t) ∧
    (S = [] → 0 < t → lzssSimpleDecompress S t = Except.error DecErr.streamEmpty) := by
  intro S t
  constructor
  · intro out h
    unfold lzssSimpleDecompress at h
    by_cases hS : S.length = 0
    · rw [if_pos hS] at h
      by_cases ht : 0 < t
      · rw [if_pos ht] at h
        cases h
      · rw [if_neg ht] at h
        cases h
        show ([] : List Nat).length = t
        simp only [List.length_nil]
        omega
    · rw [if_neg hS] at h
      exact decompLoop_ok_length (t + 1) 1 (S.getD 0 0) 8 [] out (by simp) h
  · intro hS ht
    subst hS
    unfold lzssSimpleDecompress
    rw [if_pos (by rfl), if_pos ht]

/-- Witness for C7: the stream for ten `0x41` bytes decodes to exactly 10
bytes, and the empty stream with target 5 errors. -/
theorem spec_C7_no_silent_truncation_witness :
    (List.replicate 10 65).length = 10 ∧
      lzssSimpleDecompress [] 5 = Except.error DecErr.streamEmpty :=
  ⟨(spec_C7_no_silent_truncation [24, 65, 65, 65, 32, 0, 49, 0] 10).1
      (List.replicate 10 65) (by rfl),
   (spec_C7_no_silent_truncation [] 5).2 rfl (by omega)⟩

/-! Header codec. -/

/-- C4 counterexample: parsing the bare 32-byte header written for
`(u, c) = (0, 1)` returns `(0, 0)`, not `(0, 1)` — the declared compressed
size is clamped to the zero bytes remaining after the header. -/
theorem spec_C4_counterexample :
    readPCMPHeader (writePCMPHeader 0 1) = Except.ok (0, 0) ∧
      ¬ readPCMPHeader (writePCMPHeader 0 1) = Except.ok (0, 1) := by
  constructor
  · rfl
  · intro h
    cases h

/-- C4 (amended): parsing the header written for `(u, c)` followed by the
`c` bytes of its compressed stream returns exactly `(u, c)`, for 32-bit
`u, c`; the signature sits at offset 0 and the sizes are read little-endian
from 0x14 and 0x18. -/
theorem spec_C4_header_roundtrip (u c : Nat) (rest : List Nat)
    (hu : u < 4294967296) (hc : c < 4294967296) (hrest : rest.length = c) :
    readPCMPHeader (writePCMPHeader u c ++ rest) = Except.ok (u, c) := by
  have hlen : (writePCMPHeader u c ++ rest).length = 32 + c := by
    rw [List.length_append]
    simp [writePCMPHeader, putUint32LE, hrest]
  unfold readPCMPHeader
  rw [if_neg (by rw [hlen]; simp [pcmpDataOffset])]
  rw [if_neg (by
    intro hsig
    apply hsig
    simp [writePCMPHeader])]
  dsimp only
  have hgu : getUint32LE (writePCMPHeader u c ++ rest) 20 = u := by
    have h0 : getUint32LE (writePCMPHeader u c ++ rest) 20 =
        u % 256 + 256 * (u / 256 % 256) + 65536 * (u / 65536 % 256) +
          16777216 * (u / 16777216 % 256) := rfl
    rw [h0]
    omega
  have hgc : getUint32LE (writePCMPHeader u c ++ rest) 24 = c := by
    have h0 : getUint32LE (writePCMPHeader u c ++ rest) 24 =
        c % 256 + 256 * (c / 256 % 256) + 65536 * (c / 65536 % 256) +
          16777216 * (c / 16777216 % 256) := rfl
    rw [h0]
    omega
  rw [hgu, hgc, hlen]
  have hrem : (32 + c - pcmpDataOffset) % 4294967296 = c := by
    simp only [pcmpDataOffset]
    omega
  rw [hrem]
  by_cases hc0 : c = 0
  · rw [if_pos (Or.inl hc0), hc0]
  · rw [if_neg (by omega)]

/-- Witness for C4 (amended) at `(u, c) = (5, 3)` with a 3-byte stream. -/
theorem spec_C4_header_roundtrip_witness :
    readPCMPHeader (writePCMPHeader 5 3 ++ [9, 9, 9]) = Except.ok (5, 3) :=
  spec_C4_header_roundtrip 5 3 [9, 9, 9] (by omega) (by omega) (by rfl)

/-! Alignment padder. -/

theorem writePCMPHeader_length (u c : Nat) : (writePCMPHeader u c).length = 32 := rfl

/-- C8: every container `compressAndPadToPCMP` produces has a length that is
a multiple of 2048, and the empty input yields exactly one 2048-byte unit:
the "PCMP" signature followed by zero bytes only (so the header's two size
fields at 0x14 and 0x18 are zero). -/
theorem spec_C8_alignment :
    (∀ (X out : List Nat), compressAndPadToPCMP X = Except.ok out →
      out.length % 2048 = 0) ∧
      compressAndPadToPCMP [] = Except.ok ([80, 67, 77, 80] ++ List.replicate 2044 0) := by
  constructor
  · intro X out h
    unfold compressAndPadToPCMP at h
    cases hc : coreCompressV1 X with
    | error e =>
      rw [hc] at h
      cases h
    | ok s =>
      rw [hc] at h
      dsimp only at h
      cases h
      simp only [List.length_append, writePCMPHeader_length, List.length_replicate,
        fileAlignment]
      split <;> omega
  · rfl

/-- Witness for C8: the empty-input container's length is a multiple of
2048. -/
theorem spec_C8_alignment_witness :
    ([80, 67, 77, 80] ++ List.replicate 2044 0).length % 2048 = 0 :=
  spec_C8_alignment.1 [] ([80, 67, 77, 80] ++ List.replicate 2044 0) spec_C8_alignment.2

/-! Worked example (C3). -/

/-- C3 counterexample: encoding ten `0x41` bytes yields the 8-byte stream
`[0x18, 0x41, 0x41, 0x41, 0x20, 0x00, 0x31, 0x00]`, not the 6-byte stream
`[0x10, 0x41, 0x41, 0x41, 0x04, 0x00]` (1 control byte + 3 literals + one
Copy with offset 1 and length 7) that the claim describes: `bytes.LastIndex`
only finds patterns lying entirely inside the window before the position, so
no length-7 match at offset 1 is ever found. -/
theorem spec_C3_counterexample :
    coreCompressV1 (List.replicate 10 65) = Except.ok [24, 65, 65, 65, 32, 0, 49, 0] ∧
      (Except.ok [24, 65, 65, 65, 32, 0, 49, 0] : Except CompErr (List Nat)) ≠
        Except.ok [16, 65, 65, 65, 4, 0] ∧
      ([24, 65, 65, 65, 32, 0, 49, 0] : List Nat).length = 8 := by
  constructor
  · rfl
  constructor
  · intro hc
    cases hc
  · rfl

/-- C3 (amended): encoding ten `0x41` bytes emits the first 3 bytes as
literals, then a Copy with offset 3 and length 3, then a Copy with offset 4
and length 4; the compressed stream is exactly 8 bytes (1 control byte + 3
literal bytes + 2 two-byte copies); decoding that stream with target size 10
reproduces all 10 `0x41` bytes. -/
theorem spec_C3_worked_example :
    tokens (List.replicate 10 65) =
      [Token.lit 65, Token.lit 65, Token.lit 65, Token.cpy 3 3, Token.cpy 4 4] ∧
      coreCompressV1 (List.replicate 10 65) =
        Except.ok [24, 65, 65, 65, 32, 0, 49, 0] ∧
      ([24, 65, 65, 65, 32, 0, 49, 0] : List Nat).length = 8 ∧
      lzssSimpleDecompress [24, 65, 65, 65, 32, 0, 49, 0] 10 =
        Except.ok (List.replicate 10 65) := by
  refine ⟨by rfl, by rfl, by rfl, by rfl⟩

/-! Capacity behaviour of the heuristic output buffer (C5). -/

/-- Under the size invariant `8*op + bc ≤ 9*ip + 8`, the compressor loop
cannot hit a capacity check for inputs of at most 16383 bytes. -/
theorem compressLoop_ok {X : List Nat} {B : Nat}
    (hB1 : X.length < 1024 → B = 2 * X.length + 128)
    (hB2 : 1024 ≤ X.length → B = X.length + 2048)
    (hX16 : X.length ≤ 16383) :
    ∀ f ip bc flag pending flagPos,
      X.length ≤ ip + f → bc < 8 →
      8 * (flagPos + 1 + pending.length) + bc ≤ 9 * ip + 8 →
      ∃ r, compressLoop X B (f + 1) ip bc flag pending flagPos = Except.ok r := by
  have hBbig : 9 * X.length < 8 * B := by
    by_cases hc : X.length < 1024
    · rw [hB1 hc]
      omega
    · rw [hB2 (by omega)]
      omega
  intro f
  induction f with
  | zero =>
    intro ip bc flag pending flagPos hfuel hbc hinv
    exact ⟨flag :: pending, by rw [compressLoop, if_pos (by omega)]⟩
  | succ f ih =>
    intro ip bc flag pending flagPos hfuel hbc hinv
    by_cases hip : X.length ≤ ip
    · exact ⟨flag :: pending, by rw [compressLoop, if_pos hip]⟩
    · have hip' : ip < X.length := by omega
      rw [compressLoop, if_neg hip]
      dsimp only
      rw [if_neg (show ¬ B ≤ flagPos + 1 + pending.length by omega)]
      cases hfm : findMatch X ip (min ip maxWindowSize)
          (min (X.length - ip) maxEncodedLength) with
      | none =>
        dsimp only
        by_cases hbc8 : bc + 1 = 8
        · rw [if_pos hbc8]
          rw [if_neg (show ¬ B ≤ flagPos + 1 + pending.length by omega)]
          rw [if_neg (show ¬ B ≤ flagPos + 1 + pending.length + 1 by omega)]
          obtain ⟨r2, hr2⟩ := ih (ip + 1) 0 0 [X.getD ip 0] (flagPos + 1 + pending.length)
            (by omega) (by omega)
            (by simp only [List.length_singleton]; omega)
          rw [hr2]
          exact ⟨flag :: (pending ++ r2), rfl⟩
        · rw [if_neg hbc8]
          rw [if_neg (show ¬ B ≤ flagPos + 1 + pending.length by omega)]
          exact ih (ip + 1) (bc + 1) flag (pending ++ [X.getD ip 0]) flagPos
            (by omega) (by omega)
            (by rw [List.length_append]; simp only [List.length_singleton]; omega)
      | some v =>
        obtain ⟨off, len⟩ := v
        obtain ⟨hlen3, _, hiplen, _, _, _, _⟩ := findMatch_some_facts hfm
        dsimp only
        by_cases hbc8 : bc + 1 = 8
        · rw [if_pos hbc8]
          rw [if_neg (show ¬ B ≤ flagPos + 1 + pending.length by omega)]
          rw [if_neg (show ¬ B ≤ flagPos + 1 + pending.length + 2 by omega)]
          obtain ⟨r2, hr2⟩ := ih (ip + len) 0 0 (encodePairBytes off len)
            (flagPos + 1 + pending.length) (by omega) (by omega)
            (by
              show 8 * (flagPos + 1 + pending.length + 1 +
                (encodePairBytes off len).length) + 0 ≤ 9 * (ip + len) + 8
              simp only [encodePairBytes, List.length_cons, List.length_nil]
              omega)
          rw [hr2]
          exact ⟨(flag ||| 1 <<< (7 - bc)) :: (pending ++ r2), rfl⟩
        · rw [if_neg hbc8]
          rw [if_neg (show ¬ B ≤ flagPos + 1 + pending.length + 1 by omega)]
          exact ih (ip + len) (bc + 1) (flag ||| 1 <<< (7 - bc))
            (pending ++ encodePairBytes off len) flagPos (by omega) (by omega)
            (by
              rw [List.length_append]
              simp only [encodePairBytes, List.length_cons, List.length_nil]
              omega)

/-- C5 (amended): encoding never fails for inputs of at most 16383 bytes —
the heuristic buffer always suffices there; there exists a 16384-byte input
on which `coreCompressV1` returns the capacity error (see the
counterexample). -/
theorem spec_C5_no_capacity_failure (X : List Nat) (h : X.length ≤ 16383) :
    ∃ s, coreCompressV1 X = Except.ok s := by
  by_cases hX : X.length = 0
  · exact ⟨[], by unfold coreCompressV1; rw [if_pos hX]⟩
  · unfold coreCompressV1
    rw [if_neg hX]
    dsimp only
    rw [if_neg (by simp only [outputBufferSlack]; split <;> split <;> omega)]
    apply compressLoop_ok
    · intro hc
      simp only [outputBufferSlack]
      rw [if_pos hc, if_neg (by omega)]
    · intro hc
      simp only [outputBufferSlack]
      rw [if_neg (show ¬ X.length < 1024 by omega),
        if_neg (show ¬ X.length + 2048 < 128 by omega)]
    · exact h
    · omega
    · omega
    · simp only [List.length_nil]
      omega

/-- Witness for C5 (amended) at a concrete small input. -/
theorem spec_C5_no_capacity_failure_witness :
    (List.replicate 10 65).length ≤ 16383 ∧
      ∃ s, coreCompressV1 (List.replicate 10 65) = Except.ok s :=
  ⟨by decide, spec_C5_no_capacity_failure (List.replicate 10 65) (by decide)⟩

theorem badInput_length : badInput.length = 16384 := by
  simp [badInput]

theorem badInput_getD {n : Nat} (h : n < 16384) : badInput.getD n 0 = badByte n := by
  simp [badInput, List.getD_eq_getElem?_getD, List.getElem?_map, List.getElem?_range h]

/-- No 3-byte substring of the witness input repeats at any distance. -/
theorem badByte_no_repeat (s pos : Nat) (hlt : s < pos) (hpos : pos + 2 < 16384)
    (h0 : badByte s = badByte pos) (h1 : badByte (s + 1) = badByte (pos + 1))
    (h2 : badByte (s + 2) = badByte (pos + 2)) : False := by
  unfold badByte at h0 h1 h2
  rcases Nat.mod_two_eq_zero_or_one s with hs | hs <;>
    rcases Nat.mod_two_eq_zero_or_one pos with hp | hp
  · rw [if_pos hs, if_pos hp] at h0
    rw [if_neg (show ¬ (s + 1) % 2 = 0 by omega),
      if_neg (show ¬ (pos + 1) % 2 = 0 by omega)] at h1
    omega
  · rw [if_pos hs, if_neg (show ¬ pos % 2 = 0 by omega)] at h0
    omega
  · rw [if_neg (show ¬ s % 2 = 0 by omega), if_pos hp] at h0
    omega
  · rw [if_pos (show (s + 1) % 2 = 0 by omega),
      if_pos (show (pos + 1) % 2 = 0 by omega)] at h1
    rw [if_neg (show ¬ (s + 2) % 2 = 0 by omega),
      if_neg (show ¬ (pos + 2) % 2 = 0 by omega)] at h2
    omega

/-- The encoder finds no match at any position of the witness input. -/
theorem badInput_findMatch_none (ip : Nat) (hip : ip < 16384) :
    findMatch badInput ip (min ip maxWindowSize)
      (min (badInput.length - ip) maxEncodedLength) = none := by
  cases hfm : findMatch badInput ip (min ip maxWindowSize)
      (min (badInput.length - ip) maxEncodedLength) with
  | none => rfl
  | some v =>
    exfalso
    obtain ⟨off, len⟩ := v
    obtain ⟨h1, h2, h3, h4, h5, h6, h7⟩ := findMatch_some_facts hfm
    rw [badInput_length] at h3
    have e0 := h7 0 (by omega)
    have e1 := h7 1 (by omega)
    have e2 := h7 2 (by omega)
    rw [badInput_getD (by omega), badInput_getD (by omega)] at e0 e1 e2
    rw [Nat.add_zero, Nat.add_zero] at e0
    exact badByte_no_repeat (ip - off) ip (by omega) (by omega) e0 e1 e2

/-- On the witness input the compressor loop, run from the canonical
all-literal state, exhausts the heuristic buffer. -/
theorem compressLoop_bad :
    ∀ f ip bc flag pending flagPos,
      ip ≤ 16383 → bc = ip % 8 →
      flagPos + 1 + pending.length = ip + 1 + ip / 8 →
      16383 - ip < f →
      compressLoop badInput 18432 f ip bc flag pending flagPos =
        Except.error CompErr.bufferTooSmall := by
  intro f
  induction f with
  | zero =>
    intro ip bc flag pending flagPos hip hbc hop hfuel
    omega
  | succ f ih =>
    intro ip bc flag pending flagPos hip hbc hop hfuel
    rw [compressLoop, if_neg (show ¬ badInput.length ≤ ip by rw [badInput_length]; omega)]
    dsimp only
    rw [if_neg (show ¬ (18432 ≤ flagPos + 1 + pending.length) by omega)]
    rw [badInput_findMatch_none ip (by omega)]
    dsimp only
    by_cases hip83 : ip = 16383
    · subst hip83
      rw [if_pos (show bc + 1 = 8 by omega)]
      rw [if_neg (show ¬ (18432 ≤ flagPos + 1 + pending.length) by omega)]
      rw [if_pos (show 18432 ≤ flagPos + 1 + pending.length + 1 by omega)]
    · by_cases hbc8 : bc + 1 = 8
      · rw [if_pos hbc8]
        rw [if_neg (show ¬ (18432 ≤ flagPos + 1 + pending.length) by omega)]
        rw [if_neg (show ¬ (18432 ≤ flagPos + 1 + pending.length + 1) by omega)]
        rw [ih (ip + 1) 0 0 [badInput.getD ip 0] (flagPos + 1 + pending.length)
          (by omega) (by omega) (by simp only [List.length_singleton]; omega) (by omega)]
      · rw [if_neg hbc8]
        rw [if_neg (show ¬ (18432 ≤ flagPos + 1 + pending.length) by omega)]
        exact ih (ip + 1) (bc + 1) flag (pending ++ [badInput.getD ip 0]) flagPos
          (by omega) (by omega)
          (by rw [List.length_append]; simp only [List.length_singleton]; omega) (by omega)

/-- C5 counterexample: on the 16384-byte input with no repeated 3-byte
substring, `coreCompressV1` returns the capacity error, so encoding can fail
merely due to output capacity. -/
theorem spec_C5_counterexample :
    coreCompressV1 badInput = Except.error CompErr.bufferTooSmall := by
  unfold coreCompressV1
  rw [if_neg (show ¬ badInput.length = 0 by rw [badInput_length]; omega)]
  dsimp only
  have hBe : (if (if badInput.length < 1024 then 2 * badInput.length + 128
      else badInput.length + outputBufferSlack) < 128 then 128
      else (if badInput.length < 1024 then 2 * badInput.length + 128
      else badInput.length + outputBufferSlack)) = 18432 := by
    rw [badInput_length]
    norm_num [outputBufferSlack]
  rw [hBe]
  rw [if_neg (by omega)]
  rw [show badInput.length + 1 = 16384 + 1 from by rw [badInput_length]]
  exact compressLoop_bad (16384 + 1) 0 0 0 [] 0 (by omega) (by omega) (by simp) (by omega)
